import Mathlib

/-!
Verification of the event-scheduling core (event_class.py, event_scheduler.py).

The embedding models:
* `Event`      — the task record of event_class.py (string name, integer fields;
  durations and resource requirements are modelled as `Nat` following the data
  model, deadlines and priorities as `Int`; the deadline sentinel is `-1`).
* Python's insertion-ordered dict of events is modelled as a `List Event`
  whose `name` projections are pairwise distinct (`(names events).Nodup`),
  which the dict guarantees by construction.
* `heapq` heaps of tuples are modelled as lists kept in sorted order via
  ordered insertion: a binary heap that is fully drained between pushes pops
  its contents in exactly the sorted order of the comparison relation, which
  is how both heaps of the source are used.
-/

/-- A task of the scheduler, mirroring the constructor of event_class.py. -/
structure Event where
  name : String
  duration : Nat
  dependencies : List String
  resources_required : Nat
  priority : Int
  deadline : Int
deriving DecidableEq, Repr, Inhabited

/-- The registered names, in registry (dict insertion) order. -/
def names (events : List Event) : List String := events.map Event.name

/-- Registry lookup `self.events[n]`; total on registered names. -/
def lookupEvent (events : List Event) (n : String) : Option Event :=
  events.find? (fun e => e.name == n)

/-- Dependency list of a registered name (`self.events[n].dependencies`). -/
def depsOf (events : List Event) (n : String) : List String :=
  ((lookupEvent events n).map Event.dependencies).getD []

/-- Priority of a registered name (`self.events[n].priority`). -/
def priorityOf (events : List Event) (n : String) : Int :=
  ((lookupEvent events n).map Event.priority).getD 0

/-- Resource requirement of a registered name. -/
def resourcesOf (events : List Event) (n : String) : Nat :=
  ((lookupEvent events n).map Event.resources_required).getD 0

/-- The `(priority, name)` tuple order used by both heaps of the source. -/
def pleq (a b : Int × String) : Prop :=
  a.1 < b.1 ∨ (a.1 = b.1 ∧ a.2 ≤ b.2)

instance : DecidableRel pleq := fun a b =>
  inferInstanceAs (Decidable (a.1 < b.1 ∨ (a.1 = b.1 ∧ a.2 ≤ b.2)))

/-- The `(priority, name)` order on bare names, via the registry. -/
def nameLe (events : List Event) (a b : String) : Prop :=
  pleq (priorityOf events a, a) (priorityOf events b, b)

instance (events : List Event) : DecidableRel (nameLe events) := fun a b =>
  inferInstanceAs (Decidable (pleq (priorityOf events a, a) (priorityOf events b, b)))

/-- The `(end_time, name, resources)` tuple order of the active-events heap. -/
def aleq (a b : Nat × String × Nat) : Prop :=
  a.1 < b.1 ∨ (a.1 = b.1 ∧ (a.2.1 < b.2.1 ∨ (a.2.1 = b.2.1 ∧ a.2.2 ≤ b.2.2)))

instance : DecidableRel aleq := fun a b =>
  inferInstanceAs
    (Decidable (a.1 < b.1 ∨ (a.1 = b.1 ∧ (a.2.1 < b.2.1 ∨ (a.2.1 = b.2.1 ∧ a.2.2 ≤ b.2.2)))))

/-- Errors raised by the sort: `ValueError` for an unknown dependency
(carrying the referencing task and the missing name) and for a cycle. -/
inductive SchedError where
  | unknownDep : String → String → SchedError
  | cycle : SchedError
deriving DecidableEq, Repr

/-- The first `(task, dependency)` pair, in registry then dependency-list
order, whose dependency is unregistered — the pair on which the validation
loop of topological_sort raises. -/
def findUnknown (events : List Event) : Option (String × String) :=
  events.findSome? (fun e =>
    (e.dependencies.find? (fun d => !((names events).contains d))).map (fun d => (e.name, d)))

/-- `adj_list[d]`: one entry per dependency occurrence, in registry order. -/
def adjListOf (events : List Event) (d : String) : List String :=
  (events.map (fun e => (e.dependencies.filter (fun x => x == d)).map (fun _ => e.name))).flatten

/-- One step of the in-degree decrement loop: decrement `nbr`, and collect it
as newly ready exactly when its in-degree just reached zero. -/
def decNeighbor (st : (String → Int) × List String) (nbr : String) :
    (String → Int) × List String :=
  let deg := fun m => if m = nbr then st.1 m - 1 else st.1 m
  (deg, if deg nbr = 0 then st.2 ++ [nbr] else st.2)

/-- Processing one popped node: decrement every dependent along its adjacency
list, collecting the newly ready ones. -/
def processCurrent (events : List Event) (st : (String → Int) × List String)
    (cur : String) : (String → Int) × List String :=
  (adjListOf events cur).foldl decNeighbor st

/-- One level of Kahn's loop: the heap is fully drained (pops arrive in
`(priority, name)` order) and the drained batch is then re-sorted by the same
key, as in the source. -/
def topoLevel (events : List Event) (heap : List (Int × String)) : List String :=
  List.insertionSort (nameLe events) ((List.insertionSort pleq heap).map Prod.snd)

/-- The level-batched Kahn loop.  Each round drains the whole heap as one
sorted batch, appends it to the output, decrements dependents, and refills
the heap with the newly ready nodes.  Each nonempty round outputs at least
one node and no node is ever output twice, so `events.length + 1` rounds
always suffice (proved below); the fuel argument only makes the recursion
structural. -/
def topoLoop (events : List Event) :
    Nat → (String → Int) → List (Int × String) → List (List String)
  | 0, _, _ => []
  | fuel+1, deg, heap =>
    if heap.isEmpty then []
    else
      let level := topoLevel events heap
      let st := level.foldl (processCurrent events) (deg, [])
      level :: topoLoop events fuel st.1
        ((List.insertionSort (nameLe events) st.2).map (fun n => (priorityOf events n, n)))

/-- Initial in-degrees: the dependency count of each registered name
(`defaultdict(int)` yields 0 elsewhere). -/
def initialDeg (events : List Event) : String → Int :=
  fun n => if (names events).contains n then ((depsOf events n).length : Int) else 0

/-- The seed heap: all zero-in-degree names with their priorities. -/
def topoSeeds (events : List Event) : List (Int × String) :=
  ((names events).filter (fun n => initialDeg events n == 0)).map
    (fun n => (priorityOf events n, n))

/-- The successive ready batches of the sort. -/
def topoBatches (events : List Event) : List (List String) :=
  topoLoop events (events.length + 1) (initialDeg events) (topoSeeds events)

/-- topological_sort of event_scheduler.py: validate dependency names, run
the batched Kahn loop, and fail with the cycle error when the output does not
account for every event. -/
def topological_sort (events : List Event) : Except SchedError (List String) :=
  match findUnknown events with
  | some td => .error (.unknownDep td.1 td.2)
  | none =>
    let out := (topoBatches events).flatten
    if out.length = events.length then .ok out else .error .cycle

/-- The state of the event-based simulation loop of schedule_events. -/
structure SimState where
  time : Nat
  readyQ : List (Int × String)
  waiting : List (String × List String)
  active : List (Nat × String × Nat)
  activeRes : Int
  sched : List (String × Nat × Nat)
  completed : List String
deriving Repr

/-- Propagate one completed name through the waiting table: drop it from each
remaining-dependency set, moving any task whose set empties to the ready
queue (Python mutates `waiting` and pushes onto the heap in key order; only
the resulting contents matter and are modelled). -/
def releaseWaiting (events : List Event) (done : String) :
    List (String × List String) → List (Int × String) →
    List (String × List String) × List (Int × String)
  | [], rq => ([], rq)
  | (n, ws) :: rest, rq =>
    if ws.contains done then
      let ws2 := ws.filter (fun d => !(d == done))
      if ws2.isEmpty then
        releaseWaiting events done rest (List.orderedInsert pleq (priorityOf events n, n) rq)
      else
        let (rest2, rq2) := releaseWaiting events done rest rq
        ((n, ws2) :: rest2, rq2)
    else
      let (rest2, rq2) := releaseWaiting events done rest rq
      ((n, ws) :: rest2, rq2)

/-- The completion loop: pop active events while the head finishes exactly at
the current time, freeing resources, marking completion, and releasing
waiting tasks. -/
def retireLoop (events : List Event) (time : Nat) :
    List (Nat × String × Nat) → Int → List (String × List String) →
    List (Int × String) → List String →
    List (Nat × String × Nat) × Int × List (String × List String) ×
    List (Int × String) × List String
  | [], res, w, rq, comp => ([], res, w, rq, comp)
  | (et, n, r) :: rest, res, w, rq, comp =>
    if et = time then
      let (w2, rq2) := releaseWaiting events n w rq
      retireLoop events time rest (res - (r : Int)) w2 rq2 (comp ++ [n])
    else ((et, n, r) :: rest, res, w, rq, comp)

/-- End time recorded for a name in the schedule (`self.schedule[dep][1]`);
total whenever the name is scheduled, which the loop invariants guarantee at
every use site. -/
def schedEnd (sched : List (String × Nat × Nat)) (n : String) : Option Nat :=
  (sched.find? (fun x => x.1 == n)).map (fun x => x.2.2)

/-- The admission pass: pop the whole ready queue in `(priority, name)`
order, admitting each task whose requirement fits into the remaining
capacity and deferring the rest.  The recorded start is
`max(current_time, max(dependency end times))`; with no dependencies the
fold over the empty list contributes `0`, so the start is the current time,
exactly as in the source's two-branch computation. -/
def allocLoop (events : List Event) (total : Nat) (time : Nat) :
    List (Int × String) → List (String × Nat × Nat) → Int →
    List (Nat × String × Nat) → List (Int × String) → Bool →
    List (String × Nat × Nat) × Int × List (Nat × String × Nat) ×
    List (Int × String) × Bool
  | [], sched, res, act, queued, flag => (sched, res, act, queued, flag)
  | (p, n) :: rest, sched, res, act, queued, flag =>
    let ev := (lookupEvent events n).getD default
    if res + (ev.resources_required : Int) ≤ (total : Int) then
      let depEnds := ev.dependencies.map (fun d => (schedEnd sched d).getD 0)
      let start := max time (depEnds.foldr max 0)
      let stop := start + ev.duration
      allocLoop events total time rest (sched ++ [(n, start, stop)])
        (res + (ev.resources_required : Int))
        (List.orderedInsert aleq (stop, n, ev.resources_required) act) queued true
    else
      allocLoop events total time rest sched res act (queued ++ [(p, n)]) flag

/-- The simulation loop of schedule_events.  Fuel only makes the recursion
structural: `2 * events.length + 1` iterations are proved sufficient below,
and exhaustion yields `none`.  The loop exits normally when every queue
empties, or through the deadlock break when nothing is active and the ready
tasks could not be admitted. -/
def simLoop (events : List Event) (total : Nat) :
    Nat → SimState → Option (List (String × Nat × Nat))
  | 0, _ => none
  | fuel+1, st =>
    if st.readyQ.isEmpty && st.active.isEmpty && st.waiting.isEmpty then some st.sched
    else
      let r1 := retireLoop events st.time st.active st.activeRes st.waiting st.readyQ st.completed
      let a2 := allocLoop events total st.time r1.2.2.2.1 st.sched r1.2.1 r1.1 [] false
      match a2.2.2.1 with
      | a :: rest =>
        simLoop events total fuel
          { time := a.1, readyQ := a2.2.2.2.1, waiting := r1.2.2.1, active := a :: rest,
            activeRes := a2.2.1, sched := a2.1, completed := r1.2.2.2.2 }
      | [] =>
        if !a2.2.2.2.1.isEmpty && !a2.2.2.2.2 then some a2.1
        else
          simLoop events total fuel
            { time := st.time, readyQ := a2.2.2.2.1, waiting := r1.2.2.1, active := [],
              activeRes := a2.2.1, sched := a2.1, completed := r1.2.2.2.2 }

/-- Seeding of the ready heap: tasks of the topological order with an empty
dependency list, pushed in that order. -/
def seedReady (events : List Event) (sorted : List String) : List (Int × String) :=
  sorted.foldl (fun rq n =>
    if (depsOf events n).isEmpty then
      List.orderedInsert pleq (priorityOf events n, n) rq
    else rq) []

/-- Seeding of the waiting table: `waiting[name] = set(dependencies)` for
tasks with dependencies (`dedup` models the set construction). -/
def seedWaiting (events : List Event) (sorted : List String) :
    List (String × List String) :=
  sorted.filterMap (fun n =>
    if (depsOf events n).isEmpty then none else some (n, (depsOf events n).dedup))

/-- Run the simulation from the initial state. -/
def runSim (events : List Event) (total : Nat) (sorted : List String) :
    Option (List (String × Nat × Nat)) :=
  simLoop events total (2 * events.length + 1)
    { time := 0, readyQ := seedReady events sorted, waiting := seedWaiting events sorted,
      active := [], activeRes := 0, sched := [], completed := [] }

/-- schedule_events: topological sort, then the resource-constrained
simulation.  The `Option` records fuel exhaustion of the model only; it is
proved below to be `some` whenever the sort succeeds. -/
def schedule_events (total : Nat) (events : List Event) :
    Except SchedError (Option (List (String × Nat × Nat))) :=
  match topological_sort events with
  | .error e => .error e
  | .ok sorted => .ok (runSim events total sorted)

/-- The scheduler object: capacity, registry, and the stored schedule. -/
structure EventScheduler where
  total_resources : Nat
  events : List Event
  schedule : List (String × Nat × Nat)

/-- The schedule_events method including its effect on the stored schedule:
the store is cleared first (line 119), so a raised error leaves it empty. -/
def scheduleEventsMethod (sc : EventScheduler) :
    Except SchedError (Option (List (String × Nat × Nat))) × EventScheduler :=
  match schedule_events sc.total_resources sc.events with
  | .error e => (.error e, { sc with schedule := [] })
  | .ok r => (.ok r, { sc with schedule := r.getD [] })

/-- check_deadlines: every scheduled task with a positive deadline whose end
time exceeds it, as `(name, deadline, end)` triples in schedule order. -/
def check_deadlines (events : List Event) (sched : List (String × Nat × Nat)) :
    List (String × Int × Nat) :=
  sched.filterMap (fun x =>
    match lookupEvent events x.1 with
    | some ev =>
      if 0 < ev.deadline ∧ ev.deadline < (x.2.2 : Int) then
        some (x.1, ev.deadline, x.2.2)
      else none
    | none => none)

/-- get_total_completion_time: the maximum end time, `0` for an empty
schedule. -/
def get_total_completion_time (sched : List (String × Nat × Nat)) : Nat :=
  (sched.map (fun x => x.2.2)).foldr max 0

/-- Task A of the spec's example scenario. -/
def evA : Event := ⟨"A", 3, [], 1, 1, -1⟩

/-- Task B of the spec's example scenario. -/
def evB : Event := ⟨"B", 2, [], 2, 2, -1⟩

/-- Task C of the spec's example scenario. -/
def evC : Event := ⟨"C", 1, ["A"], 1, 1, -1⟩

/-- The example task set of the spec (§8). -/
def exampleEvents : List Event := [evA, evB, evC]

/-- Recorded `(start, end)` interval of a name in a schedule. -/
def schedInterval (sched : List (String × Nat × Nat)) (n : String) :
    Option (Nat × Nat) :=
  (sched.find? (fun x => x.1 == n)).map (fun x => x.2)

/-- The cyclic two-task set of the spec's cycle-detection property. -/
def cycEvents : List Event :=
  [⟨"A", 1, ["B"], 1, 1, -1⟩, ⟨"B", 1, ["A"], 1, 1, -1⟩]

/-- A task set with a dependency on an unregistered name. -/
def unkEvents : List Event := [⟨"A", 1, ["Z"], 1, 1, -1⟩]

/-- A task set whose only remaining task requires more workers than exist:
the simulation breaks out of its loop and leaves the schedule partial. -/
def deadlockEvents : List Event :=
  [⟨"D", 4, [], 5, 1, -1⟩, ⟨"E", 1, [], 1, 2, -1⟩]

/-- C4, counterexample: on the spec's example scenario (capacity 2), the
code schedules B at `(4, 6)`, not at the claimed `(3, 5)`: at time 3 task C
(priority 1) is admitted before B (priority 2) and occupies one worker, so B
no longer fits and is deferred to time 4. -/
theorem example_schedule_B_interval :
    (match schedule_events 2 exampleEvents with
      | .ok (some s) => schedInterval s "B"
      | _ => none) = some (4, 6) ∧ ((4, 6) : Nat × Nat) ≠ (3, 5) := by
  constructor
  · rfl
  · decide

/-- C4, amended: the schedule computed for the spec's example scenario is
A = (0, 3), C = (3, 4), B = (4, 6). -/
theorem example_schedule_eval :
    schedule_events 2 exampleEvents =
      .ok (some [("A", 0, 3), ("C", 3, 4), ("B", 4, 6)]) := by
  rfl

/-- C7: whenever schedule_events fails, the stored schedule afterwards is
empty — the implementation realizes the "cleared" behavior, for every prior
stored schedule. -/
theorem scheduleEventsMethod_error_clears (sc : EventScheduler) (err : SchedError)
    (h : (scheduleEventsMethod sc).1 = .error err) :
    (scheduleEventsMethod sc).2.schedule = [] := by
  unfold scheduleEventsMethod at h ⊢
  cases hse : schedule_events sc.total_resources sc.events with
  | error e => simp [hse]
  | ok r => simp [hse] at h

/-- C7, witness: a scheduler holding a stale schedule whose task set is
cyclic; the failing call clears the store. -/
theorem scheduleEventsMethod_error_clears_witness :
    (scheduleEventsMethod ⟨2, cycEvents, [("old", 0, 1)]⟩).1 = .error .cycle ∧
    (scheduleEventsMethod ⟨2, cycEvents, [("old", 0, 1)]⟩).2.schedule = [] :=
  ⟨by rfl, scheduleEventsMethod_error_clears ⟨2, cycEvents, [("old", 0, 1)]⟩ .cycle (by rfl)⟩

/-- C9: check_deadlines reports exactly the scheduled tasks with a positive
declared deadline exceeded by their recorded end time, each as the triple
`(name, deadline, end)`; a task carrying the no-deadline sentinel `-1` is
never reported. -/
theorem check_deadlines_spec (events : List Event) (sched : List (String × Nat × Nat)) :
    (∀ n d e, (n, d, e) ∈ check_deadlines events sched ↔
      ∃ s ev, (n, s, e) ∈ sched ∧ lookupEvent events n = some ev ∧
        ev.deadline = d ∧ 0 < d ∧ d < (e : Int)) ∧
    (∀ n ev, lookupEvent events n = some ev → ev.deadline = -1 →
      ∀ d e, (n, d, e) ∉ check_deadlines events sched) := by
  have hiff : ∀ n d e, (n, d, e) ∈ check_deadlines events sched ↔
      ∃ s ev, (n, s, e) ∈ sched ∧ lookupEvent events n = some ev ∧
        ev.deadline = d ∧ 0 < d ∧ d < (e : Int) := by
    intro n d e
    simp only [check_deadlines, List.mem_filterMap]
    constructor
    · rintro ⟨⟨n', s', e'⟩, hmem, hf⟩
      cases hlk : lookupEvent events n' with
      | none => rw [hlk] at hf; simp at hf
      | some ev =>
        rw [hlk] at hf
        dsimp only at hf
        by_cases hc : 0 < ev.deadline ∧ ev.deadline < (e' : Int)
        · rw [if_pos hc] at hf
          simp only [Option.some.injEq, Prod.mk.injEq] at hf
          obtain ⟨rfl, rfl, rfl⟩ := hf
          exact ⟨s', ev, hmem, hlk, rfl, hc.1, hc.2⟩
        · rw [if_neg hc] at hf
          simp at hf
    · rintro ⟨s, ev, hmem, hlk, hd, hpos, hlt⟩
      refine ⟨(n, s, e), hmem, ?_⟩
      rw [hlk]
      simp [hd, hpos, hlt]
  refine ⟨hiff, ?_⟩
  intro n ev hlk hdl d e hin
  obtain ⟨s, ev', _, hlk', hd, hpos, _⟩ := (hiff n d e).mp hin
  rw [hlk] at hlk'
  cases hlk'
  rw [hdl] at hd
  omega

/-- C10: a scheduled task whose deadline field is zero or negative is never
reported by check_deadlines, whatever its end time: the code's guard
`deadline > 0` treats every non-positive value as the no-deadline
sentinel. -/
theorem check_deadlines_nonpositive_never (events : List Event)
    (sched : List (String × Nat × Nat)) (n : String) (ev : Event)
    (hlk : lookupEvent events n = some ev) (hdl : ev.deadline ≤ 0)
    (d : Int) (e : Nat) : (n, d, e) ∉ check_deadlines events sched := by
  intro hin
  obtain ⟨s, ev', _, hlk', hd, hpos, _⟩ :=
    ((check_deadlines_spec events sched).1 n d e).mp hin
  rw [hlk] at hlk'
  cases hlk'
  omega

/-- C10, witness: a task with deadline 0 ending at time 7 is not reported. -/
theorem check_deadlines_nonpositive_never_witness :
    lookupEvent [⟨"A", 3, [], 1, 1, 0⟩] "A" = some ⟨"A", 3, [], 1, 1, 0⟩ ∧
    (⟨"A", 3, [], 1, 1, 0⟩ : Event).deadline ≤ 0 ∧
    ((("A", 5, 7) : String × Int × Nat) ∉
      check_deadlines [⟨"A", 3, [], 1, 1, 0⟩] [("A", 4, 7)]) :=
  ⟨by decide, by decide,
    check_deadlines_nonpositive_never [⟨"A", 3, [], 1, 1, 0⟩] [("A", 4, 7)] "A"
      ⟨"A", 3, [], 1, 1, 0⟩ (by decide) (by decide) 5 7⟩

/-! ### Registry lemmas -/

theorem mem_names_iff {events : List Event} {n : String} :
    n ∈ names events ↔ ∃ ev, ev ∈ events ∧ ev.name = n := by
  simp [names]

theorem lookupEvent_some_spec {events : List Event} {n : String} {ev : Event}
    (h : lookupEvent events n = some ev) : ev ∈ events ∧ ev.name = n := by
  refine ⟨List.mem_of_find?_eq_some h, ?_⟩
  have := List.find?_some h
  simpa using this

theorem lookupEvent_exists_of_mem_names {events : List Event} {n : String}
    (h : n ∈ names events) : ∃ ev, lookupEvent events n = some ev := by
  obtain ⟨ev, hmem, hname⟩ := mem_names_iff.mp h
  cases hfind : lookupEvent events n with
  | some e => exact ⟨e, rfl⟩
  | none =>
    exfalso
    have := List.find?_eq_none.mp hfind ev hmem
    simp [hname] at this

theorem lookupEvent_of_mem {events : List Event} (hnd : (names events).Nodup)
    {ev : Event} (h : ev ∈ events) : lookupEvent events ev.name = some ev := by
  induction events with
  | nil => cases h
  | cons e rest ih =>
    simp only [names, List.map_cons, List.nodup_cons] at hnd
    cases h with
    | head => simp [lookupEvent, List.find?_cons]
    | tail _ hmem =>
      have hne : ¬(e.name == ev.name) := by
        intro hbeq
        have : ev.name ∈ rest.map Event.name := List.mem_map_of_mem Event.name hmem
        rw [← beq_iff_eq.mp hbeq] at this
        exact hnd.1 this
      have := ih hnd.2 hmem
      simp only [lookupEvent, List.find?_cons] at this ⊢
      simp only [hne]
      exact this

theorem depsOf_of_mem {events : List Event} (hnd : (names events).Nodup)
    {ev : Event} (h : ev ∈ events) : depsOf events ev.name = ev.dependencies := by
  rw [depsOf, lookupEvent_of_mem hnd h]; rfl

theorem priorityOf_of_mem {events : List Event} (hnd : (names events).Nodup)
    {ev : Event} (h : ev ∈ events) : priorityOf events ev.name = ev.priority := by
  rw [priorityOf, lookupEvent_of_mem hnd h]; rfl

theorem resourcesOf_of_mem {events : List Event} (hnd : (names events).Nodup)
    {ev : Event} (h : ev ∈ events) : resourcesOf events ev.name = ev.resources_required := by
  rw [resourcesOf, lookupEvent_of_mem hnd h]; rfl

/-! ### List helpers -/

theorem indexOf_lt_of_mem_take {l : List String} {a : String} {i : Nat}
    (h : a ∈ l.take i) : l.indexOf a < i := by
  induction l generalizing i with
  | nil => simp at h
  | cons x xs ih =>
    cases i with
    | zero => simp at h
    | succ k =>
      simp only [List.take_succ_cons] at h
      by_cases hax : x == a
      · simp [List.indexOf_cons, hax]
      · cases h with
        | head => simp at hax
        | tail _ hmem =>
          have := ih hmem
          rw [Bool.not_eq_true] at hax
          simp only [List.indexOf_cons, hax, cond_false]
          omega

theorem findSome?_eq_none_spec {α β : Type} {f : α → Option β} :
    ∀ {l : List α}, l.findSome? f = none → ∀ x ∈ l, f x = none := by
  intro l
  induction l with
  | nil => intro _ x hx; cases hx
  | cons y ys ih =>
    intro h x hx
    rw [List.findSome?_cons] at h
    cases hfy : f y with
    | some b => rw [hfy] at h; cases h
    | none =>
      rw [hfy] at h
      cases hx with
      | head => exact hfy
      | tail _ hmem => exact ih h x hmem

theorem findSome?_eq_some_spec {α β : Type} {f : α → Option β} {b : β} :
    ∀ {l : List α}, l.findSome? f = some b → ∃ x, x ∈ l ∧ f x = some b := by
  intro l
  induction l with
  | nil => intro h; cases h
  | cons y ys ih =>
    intro h
    rw [List.findSome?_cons] at h
    cases hfy : f y with
    | some c =>
      rw [hfy] at h
      exact ⟨y, List.mem_cons_self y ys, hfy.trans h⟩
    | none =>
      rw [hfy] at h
      obtain ⟨x, hmem, hfx⟩ := ih h
      exact ⟨x, List.mem_cons_of_mem y hmem, hfx⟩

theorem findUnknown_eq_none_of_resolved {events : List Event}
    (hres : ∀ e ∈ events, ∀ d ∈ e.dependencies, d ∈ names events) :
    findUnknown events = none := by
  cases hfu : findUnknown events with
  | none => rfl
  | some td =>
    exfalso
    obtain ⟨e, he, hfe⟩ := findSome?_eq_some_spec hfu
    cases hfind : e.dependencies.find? (fun x => !((names events).contains x)) with
    | none => rw [hfind] at hfe; cases hfe
    | some d =>
      have hp := List.find?_some hfind
      have hdmem := List.mem_of_find?_eq_some hfind
      have hin : d ∈ names events := hres e he d hdmem
      simp at hp
      exact hp hin

theorem resolved_of_findUnknown_eq_none {events : List Event}
    (h : findUnknown events = none) :
    ∀ e ∈ events, ∀ d ∈ e.dependencies, d ∈ names events := by
  intro e he d hd
  have hfe := findSome?_eq_none_spec h e he
  have hfind : e.dependencies.find? (fun x => !((names events).contains x)) = none := by
    cases hf : e.dependencies.find? (fun x => !((names events).contains x)) with
    | none => rfl
    | some d' => rw [hf] at hfe; cases hfe
  have := List.find?_eq_none.mp hfind d hd
  simpa using this

theorem findUnknown_some_spec {events : List Event} {t d : String}
    (h : findUnknown events = some (t, d)) :
    (∃ ev, ev ∈ events ∧ ev.name = t ∧ d ∈ ev.dependencies) ∧ d ∉ names events := by
  obtain ⟨e, he, hfe⟩ := findSome?_eq_some_spec h
  cases hfind : e.dependencies.find? (fun x => !((names events).contains x)) with
  | none => rw [hfind] at hfe; cases hfe
  | some d' =>
    rw [hfind] at hfe
    simp only [Option.map_some', Option.some.injEq, Prod.mk.injEq] at hfe
    obtain ⟨rfl, rfl⟩ := hfe
    have hp := List.find?_some hfind
    have hdmem := List.mem_of_find?_eq_some hfind
    simp at hp
    exact ⟨⟨e, he, rfl, hdmem⟩, hp⟩

/-- C6: a task set in which some task depends on an unregistered name makes
topological_sort — and hence schedule_events, before any schedule is
produced — fail with the unknown-dependency error, whose payload names a
referencing task together with its missing dependency name. -/
theorem topo_unknown_dep (total : Nat) (events : List Event)
    (h : ∃ e, e ∈ events ∧ ∃ d, d ∈ e.dependencies ∧ d ∉ names events) :
    ∃ t d, topological_sort events = .error (.unknownDep t d) ∧
      schedule_events total events = .error (.unknownDep t d) ∧
      (∃ ev, ev ∈ events ∧ ev.name = t ∧ d ∈ ev.dependencies) ∧ d ∉ names events := by
  cases hfu : findUnknown events with
  | none =>
    exfalso
    obtain ⟨e, he, d, hd, hnot⟩ := h
    exact hnot (resolved_of_findUnknown_eq_none hfu e he d hd)
  | some td =>
    obtain ⟨t, d⟩ := td
    obtain ⟨href, hnot⟩ := findUnknown_some_spec hfu
    refine ⟨t, d, ?_, ?_, href, hnot⟩
    · unfold topological_sort
      rw [hfu]
    · unfold schedule_events topological_sort
      rw [hfu]

/-- C6, witness: the task set whose only task depends on the absent "Z". -/
theorem topo_unknown_dep_witness :
    (∃ e, e ∈ unkEvents ∧ ∃ d, d ∈ e.dependencies ∧ d ∉ names unkEvents) ∧
    ∃ t d, topological_sort unkEvents = .error (.unknownDep t d) ∧
      schedule_events 2 unkEvents = .error (.unknownDep t d) ∧
      (∃ ev, ev ∈ unkEvents ∧ ev.name = t ∧ d ∈ ev.dependencies) ∧ d ∉ names unkEvents :=
  ⟨by decide, topo_unknown_dep 2 unkEvents (by decide)⟩

/-! ### In-degree bookkeeping of the sort -/

/-- Dependency occurrences of a name not yet output, with multiplicity:
the ghost quantity tracked by `in_degree` for every registered name. -/
def remaining (events : List Event) (acc : List String) (n : String) : Nat :=
  ((depsOf events n).filter (fun d => decide (d ∉ acc))).length

theorem remaining_mono (events : List Event) (acc ext : List String) (n : String) :
    remaining events (acc ++ ext) n ≤ remaining events acc n := by
  unfold remaining
  refine List.Sublist.length_le (List.monotone_filter_right _ ?_)
  intro a ha
  simp only [decide_eq_true_eq, List.mem_append] at ha ⊢
  exact fun h => ha (Or.inl h)

theorem remaining_eq_zero_iff {events : List Event} {acc : List String} {n : String} :
    remaining events acc n = 0 ↔ ∀ d ∈ depsOf events n, d ∈ acc := by
  unfold remaining
  rw [List.length_eq_zero, List.filter_eq_nil_iff]
  simp

theorem remaining_pos_exists {events : List Event} {acc : List String} {n : String}
    (h : remaining events acc n ≠ 0) : ∃ d, d ∈ depsOf events n ∧ d ∉ acc := by
  by_contra hc
  push_neg at hc
  exact h (remaining_eq_zero_iff.mpr hc)

theorem filter_snoc_count (l : List String) (acc : List String) (cur : String)
    (hcur : cur ∉ acc) :
    (l.filter (fun d => decide (d ∉ acc))).length =
    (l.filter (fun d => decide (d ∉ acc ++ [cur]))).length + l.count cur := by
  induction l with
  | nil => simp
  | cons x xs ih =>
    rw [List.filter_cons, List.filter_cons, List.count_cons]
    by_cases hx : x = cur
    · subst hx
      rw [if_pos (decide_eq_true hcur),
        if_neg (show ¬(decide (x ∉ acc ++ [x]) = true) by simp),
        if_pos (beq_self_eq_true x), List.length_cons]
      omega
    · rw [if_neg (show ¬((x == cur) = true) from fun h => hx (eq_of_beq h))]
      by_cases hmem : x ∈ acc
      · rw [if_neg (show ¬(decide (x ∉ acc) = true) by simp [hmem]),
          if_neg (show ¬(decide (x ∉ acc ++ [cur]) = true) by simp [hmem])]
        omega
      · have h2 : x ∉ acc ++ [cur] := by
          simp only [List.mem_append, List.mem_singleton]
          rintro (h | h)
          · exact hmem h
          · exact hx h
        rw [if_pos (decide_eq_true hmem), if_pos (decide_eq_true h2),
          List.length_cons, List.length_cons]
        omega

theorem remaining_snoc (events : List Event) (acc : List String) (cur n : String)
    (hcur : cur ∉ acc) :
    remaining events acc n =
      remaining events (acc ++ [cur]) n + (depsOf events n).count cur :=
  filter_snoc_count (depsOf events n) acc cur hcur

theorem mem_adjListOf {events : List Event} {cur x : String}
    (h : x ∈ adjListOf events cur) : x ∈ names events := by
  unfold adjListOf at h
  rw [List.mem_flatten] at h
  obtain ⟨l, hl, hx⟩ := h
  rw [List.mem_map] at hl
  obtain ⟨e, he, rfl⟩ := hl
  rw [List.mem_map] at hx
  obtain ⟨d, _, rfl⟩ := hx
  exact mem_names_iff.mpr ⟨e, he, rfl⟩

theorem filter_beq_length (l : List String) (cur : String) :
    (l.filter (fun x => x == cur)).length = l.count cur := by
  rw [List.count_eq_countP, List.countP_eq_length_filter]

theorem count_adjListOf {events : List Event} (hnd : (names events).Nodup)
    (cur n : String) :
    (adjListOf events cur).count n = (depsOf events n).count cur := by
  induction events with
  | nil => simp [adjListOf, depsOf, lookupEvent]
  | cons e rest ih =>
    have hnd' : (names rest).Nodup := by
      simp only [names, List.map_cons, List.nodup_cons] at hnd; exact hnd.2
    have hhead : e.name ∉ names rest := by
      simp only [names, List.map_cons, List.nodup_cons] at hnd; exact hnd.1
    have hadj : adjListOf (e :: rest) cur =
        ((e.dependencies.filter (fun x => x == cur)).map (fun _ => e.name)) ++
          adjListOf rest cur := by
      simp [adjListOf]
    rw [hadj, List.count_append]
    by_cases hen : e.name = n
    · subst hen
      have hdeps : depsOf (e :: rest) e.name = e.dependencies := by
        simp [depsOf, lookupEvent, List.find?_cons]
      rw [hdeps]
      have hc1 : ((e.dependencies.filter (fun x => x == cur)).map
          (fun _ => e.name)).count e.name =
          (e.dependencies.filter (fun x => x == cur)).length := by
        rw [List.map_const', List.count_replicate_self]
      have hc2 : (adjListOf rest cur).count e.name = 0 :=
        List.count_eq_zero.mpr (fun hmem => hhead (mem_adjListOf hmem))
      rw [hc1, hc2, filter_beq_length]
      omega
    · have hc1 : ((e.dependencies.filter (fun x => x == cur)).map
          (fun _ => e.name)).count n = 0 := by
        refine List.count_eq_zero.mpr (fun hmem => ?_)
        rw [List.mem_map] at hmem
        obtain ⟨d, _, hd⟩ := hmem
        exact hen hd
      have hdeps : depsOf (e :: rest) n = depsOf rest n := by
        have : (e.name == n) = false := by simpa using hen
        simp [depsOf, lookupEvent, List.find?_cons, this]
      rw [hc1, hdeps, ih hnd']
      omega

theorem decFold_deg (l : List String) :
    ∀ (st : (String → Int) × List String) (m : String),
    ((l.foldl decNeighbor st).1) m = st.1 m - l.count m := by
  induction l with
  | nil => intro st m; simp
  | cons x xs ih =>
    intro st m
    rw [List.foldl_cons, ih]
    show (if m = x then st.1 m - 1 else st.1 m) - xs.count m = st.1 m - (x :: xs).count m
    rw [List.count_cons]
    by_cases hmx : m = x
    · subst hmx
      rw [if_pos rfl, if_pos (beq_self_eq_true m)]
      push_cast
      omega
    · have hxm : ¬((x == m) = true) := fun h => hmx (eq_of_beq h).symm
      rw [if_neg hmx, if_neg hxm]
      push_cast
      omega

theorem decFold_newly (l : List String) :
    ∀ (st : (String → Int) × List String) (m : String),
    (m ∈ (l.foldl decNeighbor st).2 ↔
      (m ∈ st.2 ∨ (1 ≤ st.1 m ∧ st.1 m ≤ (l.count m : Int)))) := by
  induction l with
  | nil =>
    intro st m
    simp only [List.foldl_nil, List.count_nil]
    constructor
    · exact Or.inl
    · rintro (h | ⟨h1, h2⟩)
      · exact h
      · omega
  | cons x xs ih =>
    intro st m
    rw [List.foldl_cons, ih]
    have hn1 : (decNeighbor st x).2 = if st.1 x - 1 = 0 then st.2 ++ [x] else st.2 := by
      simp [decNeighbor]
    have hd1 : (decNeighbor st x).1 m = if m = x then st.1 m - 1 else st.1 m := rfl
    rw [hn1, hd1]
    by_cases hmx : m = x
    · subst hmx
      have hcnt : (m :: xs).count m = xs.count m + 1 := by
        rw [List.count_cons, if_pos (beq_self_eq_true m)]
      rw [hcnt, if_pos rfl]
      by_cases hdeg : st.1 m - 1 = 0
      · rw [if_pos hdeg]
        simp only [List.mem_append, List.mem_singleton]
        constructor
        · intro _
          right
          push_cast
          omega
        · intro _
          simp
      · rw [if_neg hdeg]
        constructor
        · rintro (h | ⟨h1, h2⟩)
          · exact Or.inl h
          · right
            push_cast at h2 ⊢
            omega
        · rintro (h | ⟨h1, h2⟩)
          · exact Or.inl h
          · right
            push_cast at h2 ⊢
            omega
    · have hxm : ¬((x == m) = true) := fun h => hmx (eq_of_beq h).symm
      have hcnt : (x :: xs).count m = xs.count m := by
        rw [List.count_cons, if_neg hxm]
        omega
      rw [hcnt, if_neg hmx]
      by_cases hdeg : st.1 x - 1 = 0
      · rw [if_pos hdeg]
        constructor
        · rintro (hm | hc)
          · rw [List.mem_append, List.mem_singleton] at hm
            cases hm with
            | inl h => exact Or.inl h
            | inr h => exact absurd h hmx
          · exact Or.inr hc
        · rintro (hm | hc)
          · exact Or.inl (List.mem_append_left _ hm)
          · exact Or.inr hc
      · rw [if_neg hdeg]

theorem decFold_nodup (l : List String) :
    ∀ (st : (String → Int) × List String), st.2.Nodup → (∀ y ∈ st.2, st.1 y ≤ 0) →
    ((l.foldl decNeighbor st).2.Nodup ∧
      ∀ y ∈ (l.foldl decNeighbor st).2, (l.foldl decNeighbor st).1 y ≤ 0) := by
  induction l with
  | nil => intro st h1 h2; exact ⟨h1, h2⟩
  | cons x xs ih =>
    intro st h1 h2
    rw [List.foldl_cons]
    have hn1 : (decNeighbor st x).2 = if st.1 x - 1 = 0 then st.2 ++ [x] else st.2 := by
      simp [decNeighbor]
    have hd1 : ∀ k, (decNeighbor st x).1 k = if k = x then st.1 k - 1 else st.1 k :=
      fun k => rfl
    refine ih _ ?_ ?_
    · rw [hn1]
      by_cases hdeg : st.1 x - 1 = 0
      · rw [if_pos hdeg]
        have hx2 : x ∉ st.2 := by
          intro hmem
          have := h2 x hmem
          omega
        refine List.Nodup.append h1 (List.nodup_singleton x) ?_
        intro a ha hax
        rw [List.mem_singleton] at hax
        subst hax
        exact hx2 ha
      · rw [if_neg hdeg]
        exact h1
    · intro y hy
      rw [hd1]
      rw [hn1] at hy
      by_cases hyx : y = x
      · subst hyx
        rw [if_pos rfl]
        by_cases hdeg : st.1 y - 1 = 0
        · omega
        · rw [if_neg hdeg] at hy
          have := h2 y hy
          omega
      · rw [if_neg hyx]
        by_cases hdeg : st.1 x - 1 = 0
        · rw [if_pos hdeg] at hy
          rw [List.mem_append, List.mem_singleton] at hy
          cases hy with
          | inl h => exact h2 y h
          | inr h => exact absurd h hyx
        · rw [if_neg hdeg] at hy
          exact h2 y hy

theorem depsOf_eq_nil_of_not_mem {events : List Event} {n : String}
    (hn : n ∉ names events) : depsOf events n = [] := by
  unfold depsOf
  cases hlk : lookupEvent events n with
  | none => rfl
  | some ev =>
    exfalso
    obtain ⟨hm, hname⟩ := lookupEvent_some_spec hlk
    exact hn (mem_names_iff.mpr ⟨ev, hm, hname⟩)

theorem processCurrent_inv (events : List Event) (hnd : (names events).Nodup)
    (acc0 P : List String) (deg : String → Int) (newly : List String) (cur : String)
    (hcur_nin : cur ∉ acc0 ++ P)
    (hdeg : ∀ n, deg n =
      if n ∈ names events then (remaining events (acc0 ++ P) n : Int) else 0)
    (hnewly : ∀ n, n ∈ newly ↔
      (n ∈ names events ∧ 0 < remaining events acc0 n ∧
        remaining events (acc0 ++ P) n = 0))
    (hnod : newly.Nodup) :
    (∀ n, (processCurrent events (deg, newly) cur).1 n =
      if n ∈ names events then (remaining events (acc0 ++ P ++ [cur]) n : Int) else 0) ∧
    (∀ n, n ∈ (processCurrent events (deg, newly) cur).2 ↔
      (n ∈ names events ∧ 0 < remaining events acc0 n ∧
        remaining events (acc0 ++ P ++ [cur]) n = 0)) ∧
    (processCurrent events (deg, newly) cur).2.Nodup := by
  have hsnoc : ∀ n, remaining events (acc0 ++ P) n =
      remaining events (acc0 ++ P ++ [cur]) n + (depsOf events n).count cur :=
    fun n => remaining_snoc events (acc0 ++ P) cur n hcur_nin
  have hdeg2 : ∀ n, (processCurrent events (deg, newly) cur).1 n =
      deg n - (adjListOf events cur).count n :=
    fun n => decFold_deg (adjListOf events cur) (deg, newly) n
  have hadj : ∀ n, (adjListOf events cur).count n = (depsOf events n).count cur :=
    count_adjListOf hnd cur
  refine ⟨?_, ?_, ?_⟩
  · intro n
    rw [hdeg2 n, hdeg n, hadj n]
    by_cases hn : n ∈ names events
    · rw [if_pos hn, if_pos hn]
      have := hsnoc n
      omega
    · rw [if_neg hn, if_neg hn, depsOf_eq_nil_of_not_mem hn]
      simp
  · intro n
    have hmem := decFold_newly (adjListOf events cur) (deg, newly) n
    dsimp only at hmem
    rw [show (processCurrent events (deg, newly) cur) =
        ((adjListOf events cur).foldl decNeighbor (deg, newly)) from rfl]
    rw [hmem, hnewly n, hdeg n, hadj n]
    by_cases hn : n ∈ names events
    · rw [if_pos hn]
      have h1 := hsnoc n
      have h2 : remaining events (acc0 ++ P) n ≤ remaining events acc0 n := by
        have := remaining_mono events acc0 P n
        omega
      simp only [hn, true_and]
      omega
    · rw [if_neg hn]
      simp only [hn, false_and]
      constructor
      · rintro (h | ⟨h1, h2⟩)
        · exact h
        · rw [depsOf_eq_nil_of_not_mem hn] at h2
          simp at h2
          omega
      · intro h
        exact h.elim
  · have hpre : ∀ y ∈ newly, deg y ≤ 0 := by
      intro y hy
      obtain ⟨hyn, _, hy0⟩ := (hnewly y).mp hy
      rw [hdeg y, if_pos hyn, hy0]
      simp
    exact (decFold_nodup (adjListOf events cur) (deg, newly) hnod hpre).1

theorem processLevel_inv (events : List Event) (hnd : (names events).Nodup)
    (acc0 : List String) :
    ∀ (lvl P : List String) (deg : String → Int) (newly : List String),
    lvl.Nodup →
    (∀ c ∈ lvl, c ∉ acc0 ++ P) →
    (∀ n, deg n =
      if n ∈ names events then (remaining events (acc0 ++ P) n : Int) else 0) →
    (∀ n, n ∈ newly ↔
      (n ∈ names events ∧ 0 < remaining events acc0 n ∧
        remaining events (acc0 ++ P) n = 0)) →
    newly.Nodup →
    ((∀ n, (lvl.foldl (processCurrent events) (deg, newly)).1 n =
        if n ∈ names events then (remaining events (acc0 ++ (P ++ lvl)) n : Int) else 0) ∧
     (∀ n, n ∈ (lvl.foldl (processCurrent events) (deg, newly)).2 ↔
        (n ∈ names events ∧ 0 < remaining events acc0 n ∧
          remaining events (acc0 ++ (P ++ lvl)) n = 0)) ∧
     (lvl.foldl (processCurrent events) (deg, newly)).2.Nodup) := by
  intro lvl
  induction lvl with
  | nil =>
    intro P deg newly _ _ hdeg hnewly hnod
    simp only [List.foldl_nil, List.append_nil]
    exact ⟨hdeg, hnewly, hnod⟩
  | cons c rest ih =>
    intro P deg newly hlvl hnin hdeg hnewly hnod
    rw [List.foldl_cons]
    obtain ⟨hc_rest, hrest_nd⟩ := List.nodup_cons.mp hlvl
    have hstep := processCurrent_inv events hnd acc0 P deg newly c
      (hnin c (List.mem_cons_self c rest)) hdeg hnewly hnod
    have happ : acc0 ++ P ++ [c] = acc0 ++ (P ++ [c]) := by
      rw [List.append_assoc]
    rw [happ] at hstep
    have hnin2 : ∀ c2 ∈ rest, c2 ∉ acc0 ++ (P ++ [c]) := by
      intro c2 hc2
      have h1 := hnin c2 (List.mem_cons_of_mem c hc2)
      simp only [List.mem_append, List.mem_singleton] at h1 ⊢
      push_neg at h1 ⊢
      refine ⟨h1.1, h1.2, ?_⟩
      intro heq
      subst heq
      exact hc_rest hc2
    have hrec := ih (P ++ [c]) _ _ hrest_nd hnin2 hstep.1 hstep.2.1 hstep.2.2
    have heq : P ++ [c] ++ rest = P ++ (c :: rest) := by simp
    rw [heq] at hrec
    exact hrec

instance : IsTotal (Int × String) pleq :=
  ⟨by
    intro a b
    rcases lt_trichotomy a.1 b.1 with h | h | h
    · exact Or.inl (Or.inl h)
    · rcases le_total a.2 b.2 with h2 | h2
      · exact Or.inl (Or.inr ⟨h, h2⟩)
      · exact Or.inr (Or.inr ⟨h.symm, h2⟩)
    · exact Or.inr (Or.inl h)⟩

instance : IsTrans (Int × String) pleq :=
  ⟨by
    intro a b c hab hbc
    rcases hab with h1 | ⟨h1, h1'⟩
    · rcases hbc with h2 | ⟨h2, h2'⟩
      · exact Or.inl (h1.trans h2)
      · exact Or.inl (h2 ▸ h1)
    · rcases hbc with h2 | ⟨h2, h2'⟩
      · exact Or.inl (h1 ▸ h2)
      · exact Or.inr ⟨h1.trans h2, h1'.trans h2'⟩⟩

instance (events : List Event) : IsTotal String (nameLe events) :=
  ⟨fun a b => total_of pleq (priorityOf events a, a) (priorityOf events b, b)⟩

instance (events : List Event) : IsTrans String (nameLe events) :=
  ⟨fun a b c hab hbc =>
    IsTrans.trans (r := pleq) (priorityOf events a, a) (priorityOf events b, b)
      (priorityOf events c, c) hab hbc⟩

/-- The round-boundary invariant of the batched Kahn loop, relating the
in-degree table, the ready-heap contents and the output produced so far. -/
structure TopoInv (events : List Event) (deg : String → Int)
    (heap : List (Int × String)) (acc : List String) : Prop where
  acc_nodup : acc.Nodup
  acc_names : ∀ a ∈ acc, a ∈ names events
  heap_wf : ∀ x ∈ heap, x.2 ∈ names events ∧ x.2 ∉ acc ∧ x.1 = priorityOf events x.2
  heap_nodup : (heap.map Prod.snd).Nodup
  deg_exact : ∀ n, deg n =
    if n ∈ names events then (remaining events acc n : Int) else 0
  ready_iff : ∀ n ∈ names events, n ∉ acc →
    (remaining events acc n = 0 ↔ n ∈ heap.map Prod.snd)
  acc_order : ∀ i (h : i < acc.length), ∀ d ∈ depsOf events (acc.get ⟨i, h⟩),
    d ∈ acc.take i

theorem TopoInv.acc_rem_zero {events deg heap acc}
    (inv : TopoInv events deg heap acc) : ∀ a ∈ acc, remaining events acc a = 0 := by
  intro a ha
  obtain ⟨⟨i, hi⟩, hget⟩ := List.mem_iff_get.mp ha
  refine remaining_eq_zero_iff.mpr (fun d hd => ?_)
  have := inv.acc_order i hi d (by rw [hget]; exact hd)
  exact List.take_subset i acc this

theorem topoLevel_perm (events : List Event) (heap : List (Int × String)) :
    (topoLevel events heap).Perm (heap.map Prod.snd) := by
  unfold topoLevel
  exact (List.perm_insertionSort (nameLe events) _).trans
    ((List.perm_insertionSort pleq heap).map Prod.snd)

theorem topoLevel_sorted (events : List Event) (heap : List (Int × String)) :
    (topoLevel events heap).Sorted (nameLe events) :=
  List.sorted_insertionSort (nameLe events) _

theorem accOrder_append (events : List Event) (acc ext : List String)
    (h1 : ∀ i (h : i < acc.length), ∀ d ∈ depsOf events (acc.get ⟨i, h⟩), d ∈ acc.take i)
    (h2 : ∀ x ∈ ext, ∀ d ∈ depsOf events x, d ∈ acc) :
    ∀ i (h : i < (acc ++ ext).length), ∀ d ∈ depsOf events ((acc ++ ext).get ⟨i, h⟩),
      d ∈ (acc ++ ext).take i := by
  intro i h d hd
  rw [List.take_append_eq_append_take]
  by_cases hi : i < acc.length
  · have hget : (acc ++ ext).get ⟨i, h⟩ = acc.get ⟨i, hi⟩ := List.get_append i hi
    rw [hget] at hd
    exact List.mem_append_left _ (h1 i hi d hd)
  · push_neg at hi
    have hget : (acc ++ ext).get ⟨i, h⟩ =
        ext.get ⟨i - acc.length, by simp at h; omega⟩ := List.get_append_right acc ext hi
    have hx : (acc ++ ext).get ⟨i, h⟩ ∈ ext := by
      rw [hget]
      exact List.get_mem ext _ _
    refine List.mem_append_left _ ?_
    rw [List.take_of_length_le hi]
    exact h2 _ hx d hd

theorem topoRound_inv (events : List Event) (hnd : (names events).Nodup)
    {deg : String → Int} {heap : List (Int × String)} {acc : List String}
    (hinv : TopoInv events deg heap acc) (hne : heap ≠ []) :
    TopoInv events ((topoLevel events heap).foldl (processCurrent events) (deg, [])).1
      ((List.insertionSort (nameLe events)
        ((topoLevel events heap).foldl (processCurrent events) (deg, [])).2).map
        (fun n => (priorityOf events n, n)))
      (acc ++ topoLevel events heap) ∧ topoLevel events heap ≠ [] := by
  have hperm : (topoLevel events heap).Perm (heap.map Prod.snd) := topoLevel_perm events heap
  have hlvl_nodup : (topoLevel events heap).Nodup := hperm.nodup_iff.mpr hinv.heap_nodup
  have hlvl_mem : ∀ c ∈ topoLevel events heap,
      c ∈ names events ∧ c ∉ acc ∧ remaining events acc c = 0 := by
    intro c hc
    have hc2 : c ∈ heap.map Prod.snd := hperm.subset hc
    rw [List.mem_map] at hc2
    obtain ⟨x, hx, rfl⟩ := hc2
    obtain ⟨h1, h2, _⟩ := hinv.heap_wf x hx
    exact ⟨h1, h2, (hinv.ready_iff x.2 h1 h2).mpr (List.mem_map_of_mem Prod.snd hx)⟩
  have hlvlne : topoLevel events heap ≠ [] := by
    intro h0
    apply hne
    rw [h0] at hperm
    have h1 : heap.map Prod.snd = [] := hperm.symm.eq_nil
    cases heap with
    | nil => rfl
    | cons a l => simp at h1
  have hdeg0 : ∀ n, deg n =
      if n ∈ names events then (remaining events (acc ++ []) n : Int) else 0 := by
    intro n
    rw [List.append_nil]
    exact hinv.deg_exact n
  have hnewly0 : ∀ n, n ∈ ([] : List String) ↔
      (n ∈ names events ∧ 0 < remaining events acc n ∧
        remaining events (acc ++ []) n = 0) := by
    intro n
    rw [List.append_nil]
    simp only [List.not_mem_nil, false_iff]
    rintro ⟨_, h1, h2⟩
    omega
  have hnin0 : ∀ c ∈ topoLevel events heap, c ∉ acc ++ [] := by
    intro c hc
    rw [List.append_nil]
    exact (hlvl_mem c hc).2.1
  have hfold := processLevel_inv events hnd acc (topoLevel events heap) [] deg []
    hlvl_nodup hnin0 hdeg0 hnewly0 List.nodup_nil
  rw [List.nil_append] at hfold
  obtain ⟨hdeg2, hnewly2, hnod2⟩ := hfold
  have hsp := List.perm_insertionSort (nameLe events)
    ((topoLevel events heap).foldl (processCurrent events) (deg, [])).2
  have hmapsnd : ((List.insertionSort (nameLe events)
      ((topoLevel events heap).foldl (processCurrent events) (deg, [])).2).map
      (fun n => (priorityOf events n, n))).map Prod.snd =
      List.insertionSort (nameLe events)
        ((topoLevel events heap).foldl (processCurrent events) (deg, [])).2 := by
    rw [List.map_map]
    exact List.map_id _
  refine ⟨⟨?_, ?_, ?_, ?_, hdeg2, ?_, ?_⟩, hlvlne⟩
  · refine List.Nodup.append hinv.acc_nodup hlvl_nodup ?_
    intro a ha hlv
    exact (hlvl_mem a hlv).2.1 ha
  · intro a ha
    rw [List.mem_append] at ha
    cases ha with
    | inl h => exact hinv.acc_names a h
    | inr h => exact (hlvl_mem a h).1
  · intro x hx
    rw [List.mem_map] at hx
    obtain ⟨n, hn, rfl⟩ := hx
    have hn2 : n ∈ ((topoLevel events heap).foldl (processCurrent events) (deg, [])).2 :=
      hsp.subset hn
    obtain ⟨h1, h2, h3⟩ := (hnewly2 n).mp hn2
    refine ⟨h1, ?_, rfl⟩
    rw [List.mem_append]
    rintro (hmem | hmem)
    · have := hinv.acc_rem_zero n hmem
      omega
    · have := (hlvl_mem n hmem).2.2
      omega
  · rw [hmapsnd]
    exact hsp.nodup_iff.mpr hnod2
  · intro n hn hnin
    rw [hmapsnd]
    constructor
    · intro h0
      by_cases hpos : 0 < remaining events acc n
      · exact hsp.symm.subset ((hnewly2 n).mpr ⟨hn, hpos, h0⟩)
      · push_neg at hpos
        have hz : remaining events acc n = 0 := Nat.le_zero.mp hpos
        have hm1 : n ∈ heap.map Prod.snd :=
          (hinv.ready_iff n hn (fun hmem => hnin (List.mem_append_left _ hmem))).mp hz
        have hm2 : n ∈ topoLevel events heap := hperm.symm.subset hm1
        exact absurd (List.mem_append_right acc hm2) hnin
    · intro hmem
      exact ((hnewly2 n).mp (hsp.subset hmem)).2.2
  · refine accOrder_append events acc (topoLevel events heap) hinv.acc_order ?_
    intro x hx d hd
    exact remaining_eq_zero_iff.mp (hlvl_mem x hx).2.2 d hd

theorem topoLoop_run (events : List Event) (hnd : (names events).Nodup) :
    ∀ (fuel : Nat) (deg : String → Int) (heap : List (Int × String)) (acc : List String),
    TopoInv events deg heap acc →
    (names events).length + 1 ≤ fuel + acc.length →
    ∃ deg2, TopoInv events deg2 []
      (acc ++ (topoLoop events fuel deg heap).flatten) := by
  intro fuel
  induction fuel with
  | zero =>
    intro deg heap acc hinv hfuel
    exfalso
    have hle : acc.length ≤ (names events).length :=
      (hinv.acc_nodup.subperm (fun a ha => hinv.acc_names a ha)).length_le
    omega
  | succ fuel ih =>
    intro deg heap acc hinv hfuel
    by_cases hheap : heap.isEmpty
    · cases heap with
      | cons a l => simp at hheap
      | nil =>
        have hempty : topoLoop events (fuel+1) deg [] = [] := rfl
        rw [hempty]
        simp only [List.flatten_nil, List.append_nil]
        exact ⟨deg, hinv⟩
    · have hne : heap ≠ [] := by
        intro h
        rw [h] at hheap
        simp at hheap
      obtain ⟨hinv2, hlvlne⟩ := topoRound_inv events hnd hinv hne
      have hstep : topoLoop events (fuel+1) deg heap =
          topoLevel events heap ::
          topoLoop events fuel
            ((topoLevel events heap).foldl (processCurrent events) (deg, [])).1
            ((List.insertionSort (nameLe events)
              ((topoLevel events heap).foldl (processCurrent events) (deg, [])).2).map
              (fun n => (priorityOf events n, n))) := by
        cases heap with
        | nil => exact absurd rfl hne
        | cons a l => rfl
      rw [hstep]
      have hlen : 1 ≤ (topoLevel events heap).length := List.length_pos.mpr hlvlne
      have hfuel2 : (names events).length + 1 ≤
          fuel + (acc ++ topoLevel events heap).length := by
        rw [List.length_append]
        omega
      have hrec := ih _ _ _ hinv2 hfuel2
      rw [List.flatten_cons, ← List.append_assoc]
      exact hrec

theorem topoInv_init (events : List Event) (hnd : (names events).Nodup) :
    TopoInv events (initialDeg events) (topoSeeds events) [] := by
  have hrem : ∀ n, remaining events [] n = (depsOf events n).length := by
    intro n
    unfold remaining
    rw [List.filter_eq_self.mpr (fun a _ => by simp)]
  have hseeds_snd : (topoSeeds events).map Prod.snd =
      (names events).filter (fun n => initialDeg events n == 0) := by
    unfold topoSeeds
    rw [List.map_map]
    exact List.map_id _
  refine ⟨List.nodup_nil, ?_, ?_, ?_, ?_, ?_, ?_⟩
  · intro a ha
    exact absurd ha (List.not_mem_nil a)
  · intro x hx
    unfold topoSeeds at hx
    rw [List.mem_map] at hx
    obtain ⟨n, hn, rfl⟩ := hx
    rw [List.mem_filter] at hn
    exact ⟨hn.1, List.not_mem_nil n, rfl⟩
  · rw [hseeds_snd]
    exact hnd.filter _
  · intro n
    unfold initialDeg
    by_cases hn : n ∈ names events
    · rw [if_pos (by simpa using hn : (names events).contains n = true), if_pos hn, hrem]
    · rw [if_neg (by simpa using hn), if_neg hn]
  · intro n hn _
    rw [hseeds_snd, List.mem_filter, hrem]
    have hcont : (names events).contains n = true := by simpa using hn
    constructor
    · intro h0
      refine ⟨hn, ?_⟩
      rw [beq_iff_eq]
      unfold initialDeg
      rw [if_pos hcont, h0]
      rfl
    · rintro ⟨_, hbeq⟩
      rw [beq_iff_eq] at hbeq
      unfold initialDeg at hbeq
      rw [if_pos hcont] at hbeq
      exact_mod_cast hbeq
  · intro i h
    simp at h

theorem topoBatches_facts (events : List Event) (hnd : (names events).Nodup) :
    ∃ deg2, TopoInv events deg2 [] (topoBatches events).flatten := by
  have hlen : (names events).length = events.length := by simp [names]
  have := topoLoop_run events hnd (events.length + 1) (initialDeg events)
    (topoSeeds events) [] (topoInv_init events hnd) (by simp [hlen])
  simpa using this

theorem indexOf_eq_of_get {l : List String} (hnd : l.Nodup) {i : Nat} (hi : i < l.length)
    {a : String} (hget : l.get ⟨i, hi⟩ = a) : l.indexOf a = i := by
  have hmem : a ∈ l := hget ▸ List.get_mem l i hi
  have hlt : l.indexOf a < l.length := List.indexOf_lt_length.mpr hmem
  have hg2 : l.get ⟨l.indexOf a, hlt⟩ = a := List.indexOf_get hlt
  have heq : (⟨l.indexOf a, hlt⟩ : Fin l.length) = ⟨i, hi⟩ :=
    (List.Nodup.get_inj_iff hnd).mp (by rw [hg2, hget])
  exact congrArg Fin.val heq

theorem topo_complete (events : List Event)
    (hres : ∀ e ∈ events, ∀ d ∈ e.dependencies, d ∈ names events)
    (rank : String → Nat)
    (hrank : ∀ e ∈ events, ∀ d ∈ e.dependencies, rank d < rank e.name)
    {deg : String → Int} {acc : List String} (hinv : TopoInv events deg [] acc) :
    ∀ n ∈ names events, n ∈ acc := by
  have main : ∀ k, ∀ n ∈ names events, rank n < k → n ∈ acc := by
    intro k
    induction k with
    | zero =>
      intro n _ h
      omega
    | succ k ihk =>
      intro n hn hlt
      by_contra hnin
      have h1 : remaining events acc n ≠ 0 := by
        intro h0
        have := (hinv.ready_iff n hn hnin).mp h0
        simp at this
      obtain ⟨d, hd, hdnin⟩ := remaining_pos_exists h1
      obtain ⟨ev, hevlk⟩ := lookupEvent_exists_of_mem_names hn
      obtain ⟨hevin, hevname⟩ := lookupEvent_some_spec hevlk
      have hdeps : depsOf events n = ev.dependencies := by
        rw [depsOf, hevlk]
        rfl
      rw [hdeps] at hd
      have hdnames : d ∈ names events := hres ev hevin d hd
      have hdrank : rank d < rank n := by
        have := hrank ev hevin d hd
        rw [hevname] at this
        exact this
      exact hdnin (ihk d hdnames (by omega))
  intro n hn
  exact main (rank n + 1) n hn (by omega)

theorem topoLoop_batches_sorted (events : List Event) :
    ∀ fuel (deg : String → Int) (heap : List (Int × String)),
    ∀ b ∈ topoLoop events fuel deg heap, b.Sorted (nameLe events) := by
  intro fuel
  induction fuel with
  | zero =>
    intro deg heap b hb
    exact absurd hb (List.not_mem_nil b)
  | succ fuel ih =>
    intro deg heap b hb
    cases heap with
    | nil => exact absurd hb (List.not_mem_nil b)
    | cons a l =>
      have hstep : topoLoop events (fuel+1) deg (a :: l) =
          topoLevel events (a :: l) ::
          topoLoop events fuel
            ((topoLevel events (a :: l)).foldl (processCurrent events) (deg, [])).1
            ((List.insertionSort (nameLe events)
              ((topoLevel events (a :: l)).foldl (processCurrent events) (deg, [])).2).map
              (fun n => (priorityOf events n, n))) := rfl
      rw [hstep] at hb
      cases hb with
      | head => exact topoLevel_sorted events (a :: l)
      | tail _ h => exact ih _ _ b h

/-- C3: on a task set whose dependencies all resolve and whose dependency
relation is acyclic, topological_sort succeeds with a sequence holding every
task name exactly once (a permutation of the registry), placing every task
after all of its dependencies, and built from ready batches each of which is
ordered by ascending priority with ties broken by lexicographically smaller
name (the order `nameLe`). -/
theorem topological_sort_correct (events : List Event)
    (hnd : (names events).Nodup)
    (hres : ∀ e ∈ events, ∀ d ∈ e.dependencies, d ∈ names events)
    (hacyc : ∃ rank : String → Nat, ∀ e ∈ events, ∀ d ∈ e.dependencies,
      rank d < rank e.name) :
    ∃ out, topological_sort events = .ok out ∧
      out = (topoBatches events).flatten ∧
      out.Perm (names events) ∧
      (∀ e ∈ events, ∀ d ∈ e.dependencies, out.indexOf d < out.indexOf e.name) ∧
      (∀ b ∈ topoBatches events, b.Sorted (nameLe events)) := by
  obtain ⟨rank, hrank⟩ := hacyc
  obtain ⟨deg2, hfin⟩ := topoBatches_facts events hnd
  have hsub : ∀ n ∈ names events, n ∈ (topoBatches events).flatten :=
    topo_complete events hres rank hrank hfin
  have hsup : ∀ a ∈ (topoBatches events).flatten, a ∈ names events := hfin.acc_names
  have hperm : ((topoBatches events).flatten).Perm (names events) := by
    have h1 : List.Subperm (names events) (topoBatches events).flatten :=
      hnd.subperm (fun a ha => hsub a ha)
    exact (hfin.acc_nodup.subperm (fun a ha => hsup a ha)).perm_of_length_le h1.length_le
  have hlen : ((topoBatches events).flatten).length = events.length := by
    rw [hperm.length_eq]
    simp [names]
  have hok : topological_sort events = .ok (topoBatches events).flatten := by
    unfold topological_sort
    rw [findUnknown_eq_none_of_resolved hres]
    show (if ((topoBatches events).flatten).length = events.length
      then Except.ok (topoBatches events).flatten
      else Except.error SchedError.cycle) =
        Except.ok (topoBatches events).flatten
    rw [if_pos hlen]
  refine ⟨(topoBatches events).flatten, hok, rfl, hperm, ?_, ?_⟩
  · intro e he d hd
    have hin : e.name ∈ (topoBatches events).flatten :=
      hsub e.name (mem_names_iff.mpr ⟨e, he, rfl⟩)
    obtain ⟨⟨i, hi⟩, hget⟩ := List.mem_iff_get.mp hin
    have hdtake : d ∈ ((topoBatches events).flatten).take i := by
      refine hfin.acc_order i hi d ?_
      rw [hget, depsOf_of_mem hnd he]
      exact hd
    have h1 : ((topoBatches events).flatten).indexOf d < i :=
      indexOf_lt_of_mem_take hdtake
    have h2 : ((topoBatches events).flatten).indexOf e.name = i :=
      indexOf_eq_of_get hfin.acc_nodup hi hget
    omega
  · intro b hb
    exact topoLoop_batches_sorted events _ _ _ b hb

/-- The acyclic two-task set used to witness the topological-sort contract. -/
def topoWitEvents : List Event :=
  [⟨"P", 1, [], 1, 1, -1⟩, ⟨"Q", 1, ["P"], 1, 1, -1⟩]

/-- C3, witness: the contract discharged on a concrete acyclic task set. -/
theorem topological_sort_correct_witness :
    ∃ out, topological_sort topoWitEvents = .ok out ∧
      out = (topoBatches topoWitEvents).flatten ∧
      out.Perm (names topoWitEvents) ∧
      (∀ e ∈ topoWitEvents, ∀ d ∈ e.dependencies,
        out.indexOf d < out.indexOf e.name) ∧
      (∀ b ∈ topoBatches topoWitEvents, b.Sorted (nameLe topoWitEvents)) :=
  topological_sort_correct topoWitEvents (by decide) (by decide)
    ⟨fun s => if s = "Q" then 1 else 0, by decide⟩

/-- C5: a task set whose dependency names all resolve and which contains
mutually dependent tasks A and B makes topological_sort — and hence
schedule_events — raise the cycle error; no sort output is produced. -/
theorem topological_sort_cycle (total : Nat) (events : List Event)
    (hnd : (names events).Nodup)
    (hres : ∀ e ∈ events, ∀ d ∈ e.dependencies, d ∈ names events)
    (A B : Event) (hA : A ∈ events) (hB : B ∈ events)
    (hAB : A.name ∈ B.dependencies) (hBA : B.name ∈ A.dependencies) :
    topological_sort events = .error .cycle ∧
    schedule_events total events = .error .cycle := by
  obtain ⟨deg2, hfin⟩ := topoBatches_facts events hnd
  have hlen : ((topoBatches events).flatten).length ≠ events.length := by
    intro hlen
    have hsub : List.Subperm (topoBatches events).flatten (names events) :=
      hfin.acc_nodup.subperm (fun a ha => hfin.acc_names a ha)
    have hperm : ((topoBatches events).flatten).Perm (names events) :=
      hsub.perm_of_length_le (by rw [hlen]; simp [names])
    have hAin : A.name ∈ (topoBatches events).flatten :=
      hperm.symm.subset (mem_names_iff.mpr ⟨A, hA, rfl⟩)
    have hBin : B.name ∈ (topoBatches events).flatten :=
      hperm.symm.subset (mem_names_iff.mpr ⟨B, hB, rfl⟩)
    obtain ⟨⟨i, hi⟩, hgetA⟩ := List.mem_iff_get.mp hAin
    obtain ⟨⟨j, hj⟩, hgetB⟩ := List.mem_iff_get.mp hBin
    have h1 : B.name ∈ ((topoBatches events).flatten).take i := by
      refine hfin.acc_order i hi B.name ?_
      rw [hgetA, depsOf_of_mem hnd hA]
      exact hBA
    have h2 : A.name ∈ ((topoBatches events).flatten).take j := by
      refine hfin.acc_order j hj A.name ?_
      rw [hgetB, depsOf_of_mem hnd hB]
      exact hAB
    have hiA : ((topoBatches events).flatten).indexOf A.name = i :=
      indexOf_eq_of_get hfin.acc_nodup hi hgetA
    have hjB : ((topoBatches events).flatten).indexOf B.name = j :=
      indexOf_eq_of_get hfin.acc_nodup hj hgetB
    have l1 := indexOf_lt_of_mem_take h1
    have l2 := indexOf_lt_of_mem_take h2
    omega
  have hcyc : topological_sort events = .error .cycle := by
    unfold topological_sort
    rw [findUnknown_eq_none_of_resolved hres]
    show (if ((topoBatches events).flatten).length = events.length
      then Except.ok (topoBatches events).flatten
      else Except.error SchedError.cycle) =
        Except.error SchedError.cycle
    rw [if_neg hlen]
  refine ⟨hcyc, ?_⟩
  unfold schedule_events
  rw [hcyc]

/-- C5, witness: the mutually dependent pair cycEvents raises the cycle
error on both entry points. -/
theorem topological_sort_cycle_witness :
    topological_sort cycEvents = .error .cycle ∧
    schedule_events 2 cycEvents = .error .cycle :=
  topological_sort_cycle 2 cycEvents (by decide) (by decide)
    ⟨"A", 1, ["B"], 1, 1, -1⟩ ⟨"B", 1, ["A"], 1, 1, -1⟩
    (by decide) (by decide) (by decide) (by decide)

/-! ### Simulation-loop invariants -/

theorem foldr_max_ge : ∀ {l : List Nat} {x : Nat}, x ∈ l → x ≤ l.foldr max 0 := by
  intro l
  induction l with
  | nil => intro x h; cases h
  | cons a as ih =>
    intro x h
    simp only [List.foldr_cons]
    cases h with
    | head => exact Nat.le_max_left _ _
    | tail _ hmem => exact (ih hmem).trans (Nat.le_max_right _ _)

theorem foldr_max_le : ∀ {l : List Nat} {b : Nat}, (∀ x ∈ l, x ≤ b) → l.foldr max 0 ≤ b := by
  intro l
  induction l with
  | nil => intro b _; exact Nat.zero_le b
  | cons a as ih =>
    intro b h
    simp only [List.foldr_cons]
    exact Nat.max_le.mpr
      ⟨h a (List.mem_cons_self a as), ih (fun x hx => h x (List.mem_cons_of_mem a hx))⟩

theorem sublist_sum_le {l l' : List Nat} (h : List.Sublist l l') : l.sum ≤ l'.sum := by
  induction h with
  | slnil => exact Nat.le_refl 0
  | @cons l1 l2 a hsub ih => simp only [List.sum_cons]; omega
  | @cons₂ l1 l2 a hsub ih => simp only [List.sum_cons]; omega

theorem subperm_sum_le {l l' : List Nat} (h : List.Subperm l l') : l.sum ≤ l'.sum := by
  obtain ⟨m, hperm, hsub⟩ := h
  rw [← hperm.sum_eq]
  exact sublist_sum_le hsub

theorem schedEnd_eq_of_mem {sched : List (String × Nat × Nat)}
    (hnd : (sched.map (fun x => x.1)).Nodup) {n : String} {s e : Nat}
    (h : (n, s, e) ∈ sched) : schedEnd sched n = some e := by
  induction sched with
  | nil => cases h
  | cons x rest ih =>
    simp only [List.map_cons, List.nodup_cons] at hnd
    cases h with
    | head =>
      unfold schedEnd
      rw [List.find?_cons]
      simp
    | tail _ hmem =>
      have hxf : (x.1 == n) = false := by
        rw [beq_eq_false_iff_ne]
        intro heq
        apply hnd.1
        rw [heq, List.mem_map]
        exact ⟨(n, s, e), hmem, rfl⟩
      have hrec := ih hnd.2 hmem
      unfold schedEnd at hrec ⊢
      rw [List.find?_cons]
      simp only [hxf]
      exact hrec

/-- The measure of the simulation loop: every iteration that retires or
admits at least one task strictly decreases it. -/
def simMeasure (st : SimState) : Nat :=
  2 * st.readyQ.length + 2 * st.waiting.length + st.active.length

/-- The invariant of the simulation loop of schedule_events, tying together
the schedule, the active heap, the resource counter, the completed set, the
ready queue and the waiting table. -/
structure SimInv (events : List Event) (total : Nat) (st : SimState) : Prop where
  sched_keys_nodup : (st.sched.map (fun x => x.1)).Nodup
  sched_names : ∀ x ∈ st.sched, x.1 ∈ names events
  sched_active_or_done : ∀ x ∈ st.sched,
    (x.2.2, x.1, resourcesOf events x.1) ∈ st.active ∨ x.2.2 ≤ st.time
  dep_end : ∀ x ∈ st.sched, ∀ d ∈ depsOf events x.1,
    ∃ s2 e2, (d, s2, e2) ∈ st.sched ∧ e2 ≤ x.2.1
  active_wf : ∀ a ∈ st.active, (∃ s, (a.2.1, s, a.1) ∈ st.sched) ∧
    a.2.2 = resourcesOf events a.2.1 ∧ st.time ≤ a.1
  active_nodup : (st.active.map (fun a => a.2.1)).Nodup
  active_sorted : List.Sorted aleq st.active
  res_exact : st.activeRes = ((((st.active.map (fun a => a.2.2)).sum : Nat)) : Int)
  res_bound : ∀ t : Int,
    ((st.sched.filter (fun x => (x.2.1 : Int) ≤ t ∧ t < (x.2.2 : Int))).map
      (fun x => resourcesOf events x.1)).sum ≤ total
  completed_iff : ∀ c, c ∈ st.completed ↔
    ((∃ x, x ∈ st.sched ∧ x.1 = c) ∧ c ∉ st.active.map (fun a => a.2.1))
  ready_wf : ∀ r ∈ st.readyQ, r.2 ∈ names events ∧ r.1 = priorityOf events r.2 ∧
    (∀ x ∈ st.sched, x.1 ≠ r.2) ∧ ∀ d ∈ depsOf events r.2, d ∈ st.completed
  ready_nodup : (st.readyQ.map Prod.snd).Nodup
  waiting_wf : ∀ w ∈ st.waiting, w.1 ∈ names events ∧ (∀ x ∈ st.sched, x.1 ≠ w.1) ∧
    w.2 = (depsOf events w.1).dedup.filter (fun d => decide (d ∉ st.completed)) ∧
    w.2 ≠ []
  waiting_nodup : (st.waiting.map (fun w => w.1)).Nodup
  ready_waiting_disj : ∀ r ∈ st.readyQ, ∀ w ∈ st.waiting, r.2 ≠ w.1
  cover : ∀ n ∈ names events, (∃ x, x ∈ st.sched ∧ x.1 = n) ∨
    n ∈ st.readyQ.map Prod.snd ∨ ∃ w, w ∈ st.waiting ∧ w.1 = n

/-- A completed task's recorded end time never exceeds the clock. -/
theorem SimInv.completed_end {events total st} (inv : SimInv events total st)
    {d : String} (hd : d ∈ st.completed) :
    ∃ s2 e2, (d, s2, e2) ∈ st.sched ∧ e2 ≤ st.time := by
  obtain ⟨⟨x, hx, hx1⟩, hnact⟩ := (inv.completed_iff d).mp hd
  obtain ⟨x1, ⟨x21, x22⟩⟩ := x
  cases hx1
  refine ⟨x21, x22, hx, ?_⟩
  cases inv.sched_active_or_done _ hx with
  | inl h =>
    exfalso
    apply hnact
    rw [List.mem_map]
    exact ⟨(x22, x1, resourcesOf events x1), h, rfl⟩
  | inr h => exact h

instance : IsTotal (Nat × String × Nat) aleq :=
  ⟨by
    intro a b
    rcases lt_trichotomy a.1 b.1 with h | h | h
    · exact Or.inl (Or.inl h)
    · rcases lt_trichotomy a.2.1 b.2.1 with h2 | h2 | h2
      · exact Or.inl (Or.inr ⟨h, Or.inl h2⟩)
      · rcases le_total a.2.2 b.2.2 with h3 | h3
        · exact Or.inl (Or.inr ⟨h, Or.inr ⟨h2, h3⟩⟩)
        · exact Or.inr (Or.inr ⟨h.symm, Or.inr ⟨h2.symm, h3⟩⟩)
      · exact Or.inr (Or.inr ⟨h.symm, Or.inl h2⟩)
    · exact Or.inr (Or.inl h)⟩

instance : IsTrans (Nat × String × Nat) aleq :=
  ⟨by
    intro a b c hab hbc
    rcases hab with h1 | ⟨h1, h1'⟩
    · rcases hbc with h2 | ⟨h2, h2'⟩
      · exact Or.inl (h1.trans h2)
      · exact Or.inl (h2 ▸ h1)
    · rcases hbc with h2 | ⟨h2, h2'⟩
      · exact Or.inl (h1 ▸ h2)
      · refine Or.inr ⟨h1.trans h2, ?_⟩
        rcases h1' with h3 | ⟨h3, h3'⟩
        · rcases h2' with h4 | ⟨h4, h4'⟩
          · exact Or.inl (h3.trans h4)
          · exact Or.inl (h4 ▸ h3)
        · rcases h2' with h4 | ⟨h4, h4'⟩
          · exact Or.inl (h3 ▸ h4)
          · exact Or.inr ⟨h3.trans h4, h3'.trans h4'⟩⟩

theorem subperm_map {α β : Type} (f : α → β) {l l' : List α} (h : List.Subperm l l') :
    List.Subperm (l.map f) (l'.map f) := by
  obtain ⟨m, hperm, hsub⟩ := h
  exact ⟨m.map f, hperm.map f, hsub.map f⟩

theorem sched_key_inj {sched : List (String × Nat × Nat)}
    (hnd : (sched.map (fun x => x.1)).Nodup) {x y : String × Nat × Nat}
    (hx : x ∈ sched) (hy : y ∈ sched) (hk : x.1 = y.1) : x = y :=
  List.inj_on_of_nodup_map hnd hx hy hk

theorem overlap_sum_le_active (events : List Event)
    {sched : List (String × Nat × Nat)} {act : List (Nat × String × Nat)} {time : Nat}
    (hnd : (sched.map (fun x => x.1)).Nodup)
    (hao : ∀ x ∈ sched, (x.2.2, x.1, resourcesOf events x.1) ∈ act ∨ x.2.2 ≤ time)
    (t : Int) (ht : (time : Int) ≤ t) :
    ((sched.filter (fun x => decide ((x.2.1 : Int) ≤ t ∧ t < (x.2.2 : Int)))).map
      (fun x => resourcesOf events x.1)).sum ≤ (act.map (fun a => a.2.2)).sum := by
  have hsub : ∀ x ∈ sched.filter
      (fun x => decide ((x.2.1 : Int) ≤ t ∧ t < (x.2.2 : Int))),
      (x.2.2, x.1, resourcesOf events x.1) ∈ act := by
    intro x hx
    rw [List.mem_filter] at hx
    obtain ⟨hx1, hx2⟩ := hx
    rw [decide_eq_true_eq] at hx2
    cases hao x hx1 with
    | inl h => exact h
    | inr h =>
      exfalso
      have : (x.2.2 : Int) ≤ (time : Int) := by exact_mod_cast h
      omega
  have hflnd : (sched.filter
      (fun x => decide ((x.2.1 : Int) ≤ t ∧ t < (x.2.2 : Int)))).Nodup :=
    (List.Nodup.of_map _ hnd).filter _
  have htrip : ((sched.filter
      (fun x => decide ((x.2.1 : Int) ≤ t ∧ t < (x.2.2 : Int)))).map
      (fun x => (x.2.2, x.1, resourcesOf events x.1))).Nodup := by
    refine List.Nodup.map_on ?_ hflnd
    intro x hx y hy heq
    have hk : x.1 = y.1 := congrArg (fun a => a.2.1) heq
    exact sched_key_inj hnd (List.mem_of_mem_filter hx) (List.mem_of_mem_filter hy) hk
  have hsp : List.Subperm ((sched.filter
      (fun x => decide ((x.2.1 : Int) ≤ t ∧ t < (x.2.2 : Int)))).map
      (fun x => (x.2.2, x.1, resourcesOf events x.1))) act := by
    refine htrip.subperm ?_
    intro a ha
    rw [List.mem_map] at ha
    obtain ⟨x, hx, rfl⟩ := ha
    exact hsub x hx
  have hmm : ((sched.filter
      (fun x => decide ((x.2.1 : Int) ≤ t ∧ t < (x.2.2 : Int)))).map
      (fun x => (x.2.2, x.1, resourcesOf events x.1))).map (fun a => a.2.2) =
      (sched.filter (fun x => decide ((x.2.1 : Int) ≤ t ∧ t < (x.2.2 : Int)))).map
      (fun x => resourcesOf events x.1) := by
    rw [List.map_map]
    rfl
  rw [← hmm]
  exact subperm_sum_le (subperm_map _ hsp)

theorem admit_step (events : List Event) (total : Nat)
    (time : Nat) (queued rest : List (Int × String)) (p : Int) (n : String)
    (w : List (String × List String)) (act : List (Nat × String × Nat)) (res : Int)
    (sched : List (String × Nat × Nat)) (comp : List String) (ev : Event)
    (hev : lookupEvent events n = some ev)
    (hinv : SimInv events total
      ⟨time, queued ++ (p, n) :: rest, w, act, res, sched, comp⟩)
    (hfit : res + (ev.resources_required : Int) ≤ (total : Int)) :
    SimInv events total
      ⟨time, queued ++ rest, w,
        List.orderedInsert aleq
          (max time ((ev.dependencies.map (fun d => (schedEnd sched d).getD 0)).foldr max 0)
            + ev.duration, n, ev.resources_required) act,
        res + (ev.resources_required : Int),
        sched ++ [(n,
          max time ((ev.dependencies.map (fun d => (schedEnd sched d).getD 0)).foldr max 0),
          max time ((ev.dependencies.map (fun d => (schedEnd sched d).getD 0)).foldr max 0)
            + ev.duration)],
        comp⟩ := by
  have hdeps : depsOf events n = ev.dependencies := by
    rw [depsOf, hev]
    rfl
  have hresn : resourcesOf events n = ev.resources_required := by
    rw [resourcesOf, hev]
    rfl
  have hmemr : (p, n) ∈ queued ++ (p, n) :: rest :=
    List.mem_append_right queued (List.mem_cons_self _ _)
  obtain ⟨hn_names, _, hn_sched, hn_deps⟩ := hinv.ready_wf (p, n) hmemr
  have hdall : ∀ v ∈ ev.dependencies.map (fun d => (schedEnd sched d).getD 0),
      v ≤ time := by
    intro v hv
    rw [List.mem_map] at hv
    obtain ⟨d, hd, rfl⟩ := hv
    have hdc : d ∈ comp := hn_deps d (by rw [hdeps]; exact hd)
    obtain ⟨s2, e2, hmem2, he2⟩ := hinv.completed_end hdc
    rw [schedEnd_eq_of_mem hinv.sched_keys_nodup hmem2]
    exact he2
  have hstart : max time
      ((ev.dependencies.map (fun d => (schedEnd sched d).getD 0)).foldr max 0) = time :=
    Nat.max_eq_left (foldr_max_le hdall)
  rw [hstart]
  have hperm : List.Perm
      (List.orderedInsert aleq (time + ev.duration, n, ev.resources_required) act)
      ((time + ev.duration, n, ev.resources_required) :: act) :=
    List.perm_orderedInsert aleq _ act
  have hpermn : List.Perm
      ((List.orderedInsert aleq (time + ev.duration, n, ev.resources_required) act).map
        (fun a => a.2.1))
      (n :: act.map (fun a => a.2.1)) := hperm.map _
  have hact_sched : ∀ a ∈ act, a.2.1 ∈ sched.map (fun x => x.1) := by
    intro a ha
    obtain ⟨⟨s, hs⟩, _, _⟩ := hinv.active_wf a ha
    rw [List.mem_map]
    exact ⟨(a.2.1, s, a.1), hs, rfl⟩
  have hn_act : n ∉ act.map (fun a => a.2.1) := by
    intro hmem
    rw [List.mem_map] at hmem
    obtain ⟨a, ha, han⟩ := hmem
    obtain ⟨⟨s, hs⟩, _, _⟩ := hinv.active_wf a ha
    exact hn_sched (a.2.1, s, a.1) hs han
  have hready_names : ((queued ++ (p, n) :: rest).map Prod.snd).Perm
      (n :: (queued ++ rest).map Prod.snd) := by
    rw [List.map_append, List.map_cons, List.map_append]
    exact List.perm_middle
  have hn_notq : n ∉ (queued ++ rest).map Prod.snd := by
    have := (hready_names.nodup_iff).mp hinv.ready_nodup
    exact (List.nodup_cons.mp this).1
  have hqr_sub : ∀ r2 ∈ queued ++ rest, r2 ∈ queued ++ (p, n) :: rest := by
    intro r2 hr2
    rw [List.mem_append] at hr2 ⊢
    cases hr2 with
    | inl h => exact Or.inl h
    | inr h => exact Or.inr (List.mem_cons_of_mem _ h)
  refine ⟨?_, ?_, ?_, ?_, ?_, ?_, ?_, ?_, ?_, ?_, ?_, ?_, ?_, ?_, ?_, ?_⟩
  · rw [List.map_append]
    refine List.Nodup.append hinv.sched_keys_nodup (by simp) ?_
    intro a ha hb
    simp only [List.map_cons, List.map_nil, List.mem_singleton] at hb
    subst hb
    rw [List.mem_map] at ha
    obtain ⟨x, hx, hxa⟩ := ha
    exact hn_sched x hx hxa
  · intro x hx
    rw [List.mem_append] at hx
    cases hx with
    | inl h => exact hinv.sched_names x h
    | inr h =>
      rw [List.mem_singleton] at h
      subst h
      exact hn_names
  · intro x hx
    rw [List.mem_append] at hx
    cases hx with
    | inl h =>
      cases hinv.sched_active_or_done x h with
      | inl h2 => exact Or.inl (hperm.symm.subset (List.mem_cons_of_mem _ h2))
      | inr h2 => exact Or.inr h2
    | inr h =>
      rw [List.mem_singleton] at h
      subst h
      left
      refine hperm.symm.subset ?_
      rw [hresn]
      exact List.mem_cons_self _ _
  · intro x hx d hd
    rw [List.mem_append] at hx
    cases hx with
    | inl h =>
      obtain ⟨s2, e2, hm, he⟩ := hinv.dep_end x h d hd
      exact ⟨s2, e2, List.mem_append_left _ hm, he⟩
    | inr h =>
      rw [List.mem_singleton] at h
      subst h
      rw [hdeps] at hd
      have hdc : d ∈ comp := hn_deps d (by rw [hdeps]; exact hd)
      obtain ⟨s2, e2, hmem2, he2⟩ := hinv.completed_end hdc
      exact ⟨s2, e2, List.mem_append_left _ hmem2, he2⟩
  · intro a ha
    have ha2 : a ∈ (time + ev.duration, n, ev.resources_required) :: act := hperm.subset ha
    cases ha2 with
    | head =>
      refine ⟨⟨time, List.mem_append_right _ (List.mem_cons_self _ _)⟩, ?_, ?_⟩
      · rw [hresn]
      · exact Nat.le_add_right time ev.duration
    | tail _ hmem =>
      obtain ⟨⟨s, hs⟩, h2, h3⟩ := hinv.active_wf a hmem
      exact ⟨⟨s, List.mem_append_left _ hs⟩, h2, h3⟩
  · rw [(hpermn).nodup_iff]
    rw [List.nodup_cons]
    exact ⟨hn_act, hinv.active_nodup⟩
  · exact List.Sorted.orderedInsert _ _ hinv.active_sorted
  · show res + (ev.resources_required : Int) =
      (((((List.orderedInsert aleq
        (time + ev.duration, n, ev.resources_required) act).map
          (fun a => a.2.2)).sum : Nat)) : Int)
    have hsum : ((List.orderedInsert aleq
        (time + ev.duration, n, ev.resources_required) act).map (fun a => a.2.2)).sum =
        ev.resources_required + (act.map (fun a => a.2.2)).sum := by
      rw [(hperm.map (fun a => a.2.2)).sum_eq]
      rfl
    rw [hsum]
    have hre : res = (((act.map (fun a => a.2.2)).sum : Nat) : Int) := hinv.res_exact
    omega
  · intro t
    rw [List.filter_append, List.map_append, List.sum_append]
    by_cases hov : ((time : Int) ≤ t ∧ t < ((time + ev.duration : Nat) : Int))
    · have hle := overlap_sum_le_active events hinv.sched_keys_nodup
        hinv.sched_active_or_done t hov.1
      have hres : res = (((act.map (fun a => a.2.2)).sum : Nat) : Int) := hinv.res_exact
      have hfit2 : res + (ev.resources_required : Int) ≤ (total : Int) := hfit
      have hsingle : (([(n, time, time + ev.duration)].filter
          (fun x => decide ((x.2.1 : Int) ≤ t ∧ t < (x.2.2 : Int)))).map
          (fun x => resourcesOf events x.1)).sum ≤ ev.resources_required := by
        rw [List.filter_cons]
        by_cases hc : ((((n, time, time + ev.duration).2.1 : Nat) : Int) ≤ t ∧
            t < (((n, time, time + ev.duration).2.2 : Nat) : Int))
        · rw [if_pos (decide_eq_true hc), List.filter_nil]
          simp [hresn]
        · rw [if_neg (by simpa using hc), List.filter_nil]
          simp
      have hmain : ((sched.filter
          (fun x => decide ((x.2.1 : Int) ≤ t ∧ t < (x.2.2 : Int)))).map
          (fun x => resourcesOf events x.1)).sum ≤ (act.map (fun a => a.2.2)).sum := hle
      have hact_le : (act.map (fun a => a.2.2)).sum + ev.resources_required ≤ total := by
        omega
      have hrn : resourcesOf events n = ev.resources_required := hresn
      omega
    · have hsingle : ([(n, time, time + ev.duration)].filter
          (fun x => decide ((x.2.1 : Int) ≤ t ∧ t < (x.2.2 : Int)))) = [] := by
        rw [List.filter_cons, if_neg (by simpa using hov), List.filter_nil]
      rw [hsingle]
      simp only [List.map_nil, List.sum_nil, Nat.add_zero]
      exact hinv.res_bound t
  · intro c
    constructor
    · intro hc
      obtain ⟨⟨x, hx, hx1⟩, hnact⟩ := (hinv.completed_iff c).mp hc
      have hcn : c ≠ n := by
        intro heq
        exact hn_sched x hx (heq ▸ hx1)
      refine ⟨⟨x, List.mem_append_left _ hx, hx1⟩, ?_⟩
      intro hmem
      have := hpermn.subset hmem
      cases this with
      | head => exact hcn rfl
      | tail _ h => exact hnact h
    · rintro ⟨⟨x, hx, hx1⟩, hnact⟩
      have hcn : c ≠ n := by
        intro heq
        subst heq
        exact hnact (hpermn.symm.subset (List.mem_cons_self _ _))
      rw [List.mem_append] at hx
      cases hx with
      | inl h =>
        refine (hinv.completed_iff c).mpr ⟨⟨x, h, hx1⟩, ?_⟩
        intro hmem
        exact hnact (hpermn.symm.subset (List.mem_cons_of_mem _ hmem))
      | inr h =>
        rw [List.mem_singleton] at h
        subst h
        exact absurd hx1 (by simpa using hcn.symm)
  · intro r hr
    obtain ⟨h1, h2, h3, h4⟩ := hinv.ready_wf r (hqr_sub r hr)
    refine ⟨h1, h2, ?_, h4⟩
    intro x hx
    rw [List.mem_append] at hx
    cases hx with
    | inl h => exact h3 x h
    | inr h =>
      rw [List.mem_singleton] at h
      subst h
      intro heq
      apply hn_notq
      have heq2 : n = r.2 := heq
      rw [heq2, List.mem_map]
      exact ⟨r, hr, rfl⟩
  · have := (hready_names.nodup_iff).mp hinv.ready_nodup
    exact (List.nodup_cons.mp this).2
  · intro w2 hw
    obtain ⟨h1, h2, h3, h4⟩ := hinv.waiting_wf w2 hw
    refine ⟨h1, ?_, h3, h4⟩
    intro x hx
    rw [List.mem_append] at hx
    cases hx with
    | inl h => exact h2 x h
    | inr h =>
      rw [List.mem_singleton] at h
      subst h
      exact hinv.ready_waiting_disj (p, n) hmemr w2 hw
  · exact hinv.waiting_nodup
  · intro r hr w2 hw
    exact hinv.ready_waiting_disj r (hqr_sub r hr) w2 hw
  · intro m hm
    cases hinv.cover m hm with
    | inl h =>
      obtain ⟨x, hx, hx1⟩ := h
      exact Or.inl ⟨x, List.mem_append_left _ hx, hx1⟩
    | inr h =>
      cases h with
      | inl h2 =>
        by_cases hmn : m = n
        · subst hmn
          exact Or.inl ⟨(m, time, time + ev.duration),
            List.mem_append_right _ (List.mem_cons_self _ _), rfl⟩
        · right
          left
          have := hready_names.subset h2
          cases this with
          | head => exact absurd rfl hmn
          | tail _ h3 => exact h3
      | inr h2 => exact Or.inr (Or.inr h2)

theorem filter_done_merge (l : List String) (comp : List String) (done : String) :
    (l.filter (fun d => decide (d ∉ comp))).filter (fun d => !(d == done)) =
    l.filter (fun d => decide (d ∉ comp ++ [done])) := by
  rw [List.filter_filter]
  refine List.filter_congr ?_
  intro x _
  by_cases hx : x = done
  · subst hx
    simp
  · by_cases hc : x ∈ comp
    · simp [hc]
    · simp [hc, hx]

theorem filter_done_skip (l : List String) (comp : List String) (done : String)
    (hnot : done ∉ l.filter (fun d => decide (d ∉ comp))) :
    l.filter (fun d => decide (d ∉ comp)) =
    l.filter (fun d => decide (d ∉ comp ++ [done])) := by
  rw [← filter_done_merge]
  refine (List.filter_eq_self.mpr ?_).symm
  intro a ha
  have : a ≠ done := by
    intro heq
    subst heq
    exact hnot ha
  simpa using this

theorem releaseWaiting_spec (events : List Event) (done : String) (comp : List String)
    (Q : String → Prop) :
    ∀ (w : List (String × List String)) (rq : List (Int × String)),
    (∀ e ∈ w, Q e.1 ∧ e.1 ∈ names events ∧
      e.2 = (depsOf events e.1).dedup.filter (fun d => decide (d ∉ comp)) ∧ e.2 ≠ []) →
    ((w.map (fun e => e.1)).Nodup) →
    (∀ r ∈ rq, r.2 ∉ w.map (fun e => e.1)) →
    ((∀ e ∈ (releaseWaiting events done w rq).1, Q e.1 ∧ e.1 ∈ names events ∧
        e.2 = (depsOf events e.1).dedup.filter (fun d => decide (d ∉ comp ++ [done])) ∧
        e.2 ≠ []) ∧
      List.Sublist ((releaseWaiting events done w rq).1.map (fun e => e.1))
        (w.map (fun e => e.1)) ∧
      (∀ r ∈ (releaseWaiting events done w rq).2, r ∈ rq ∨
        (Q r.2 ∧ r.2 ∈ names events ∧ r.1 = priorityOf events r.2 ∧
          (∀ d ∈ depsOf events r.2, d ∈ comp ++ [done]) ∧
          r.2 ∈ w.map (fun e => e.1))) ∧
      (∀ n2, n2 ∈ (releaseWaiting events done w rq).2.map Prod.snd ↔
        (n2 ∈ rq.map Prod.snd ∨ (n2 ∈ w.map (fun e => e.1) ∧
          n2 ∉ (releaseWaiting events done w rq).1.map (fun e => e.1)))) ∧
      ((rq.map Prod.snd).Nodup → ((releaseWaiting events done w rq).2.map Prod.snd).Nodup) ∧
      ((releaseWaiting events done w rq).1.length +
        (releaseWaiting events done w rq).2.length = w.length + rq.length)) := by
  intro w
  induction w with
  | nil =>
    intro rq _ _ _
    have hnil : releaseWaiting events done [] rq = ([], rq) := rfl
    rw [hnil]
    refine ⟨?_, ?_, ?_, ?_, ?_, ?_⟩
    · intro e he
      exact absurd he (List.not_mem_nil e)
    · exact List.Sublist.refl _
    · intro r hr
      exact Or.inl hr
    · intro n2
      simp
    · intro h
      exact h
    · rfl
  | cons hd rest ih =>
    intro rq hw hwnd hdisj
    obtain ⟨n, ws⟩ := hd
    obtain ⟨hQ, hnm, hws, hwsne⟩ := hw (n, ws) (List.mem_cons_self _ _)
    have hQ' : Q n := hQ
    have hnm' : n ∈ names events := hnm
    have hws' : ws = (depsOf events n).dedup.filter (fun d => decide (d ∉ comp)) := hws
    have hwsne' : ws ≠ [] := hwsne
    have hwnd2 : (rest.map (fun e => e.1)).Nodup := (List.nodup_cons.mp hwnd).2
    have hnkey : n ∉ rest.map (fun e => e.1) := (List.nodup_cons.mp hwnd).1
    have hwrest : ∀ e ∈ rest, Q e.1 ∧ e.1 ∈ names events ∧
        e.2 = (depsOf events e.1).dedup.filter (fun d => decide (d ∉ comp)) ∧ e.2 ≠ [] :=
      fun e he => hw e (List.mem_cons_of_mem _ he)
    by_cases hcont : ws.contains done
    · by_cases hempty : (ws.filter (fun d => !(d == done))).isEmpty
      · -- the entry is released to the ready queue
        have hstep : releaseWaiting events done ((n, ws) :: rest) rq =
            releaseWaiting events done rest
              (List.orderedInsert pleq (priorityOf events n, n) rq) := by
          rw [releaseWaiting, if_pos hcont, if_pos hempty]
        rw [hstep]
        have hrqperm : (List.orderedInsert pleq (priorityOf events n, n) rq).Perm
            ((priorityOf events n, n) :: rq) := List.perm_orderedInsert pleq _ rq
        have hdisj2 : ∀ r ∈ List.orderedInsert pleq (priorityOf events n, n) rq,
            r.2 ∉ rest.map (fun e => e.1) := by
          intro r hr
          cases hrqperm.subset hr with
          | head => exact hnkey
          | tail _ hmem =>
            intro hk
            exact hdisj r hmem (List.mem_cons_of_mem _ hk)
        have hdepsn : ∀ d ∈ depsOf events n, d ∈ comp ++ [done] := by
          intro d hd
          have hfe : ws.filter (fun d => !(d == done)) = [] :=
            List.isEmpty_iff.mp hempty
          by_cases hdc : d ∈ comp
          · exact List.mem_append_left _ hdc
          · have hdws : d ∈ ws := by
              rw [hws', List.mem_filter]
              exact ⟨List.mem_dedup.mpr hd, decide_eq_true hdc⟩
            have := List.filter_eq_nil_iff.mp hfe d hdws
            simp only [Bool.not_eq_true', beq_eq_false_iff_ne, ne_eq, not_not] at this
            subst this
            exact List.mem_append_right _ (List.mem_singleton.mpr rfl)
        obtain ⟨c1, c2, c3, c4, c5, c6⟩ := ih (List.orderedInsert pleq (priorityOf events n, n) rq)
          hwrest hwnd2 hdisj2
        refine ⟨c1, ?_, ?_, ?_, ?_, ?_⟩
        · simp only [List.map_cons]
          exact List.Sublist.cons _ c2
        · intro r hr
          cases c3 r hr with
          | inl h =>
            cases hrqperm.subset h with
            | head =>
              right
              exact ⟨hQ, hnm, rfl, hdepsn, List.mem_cons_self _ _⟩
            | tail _ hmem => exact Or.inl hmem
          | inr h =>
            obtain ⟨q1, q2, q3, q4, q5⟩ := h
            exact Or.inr ⟨q1, q2, q3, q4, List.mem_cons_of_mem _ q5⟩
        · intro n2
          rw [c4 n2]
          have hrqn : n2 ∈ (List.orderedInsert pleq (priorityOf events n, n) rq).map Prod.snd ↔
              (n2 = n ∨ n2 ∈ rq.map Prod.snd) := by
            rw [List.Perm.mem_iff (hrqperm.map Prod.snd)]
            simp
          rw [hrqn]
          simp only [List.map_cons, List.mem_cons]
          constructor
          · rintro ((h | h) | ⟨h1, h2⟩)
            · subst h
              refine Or.inr ⟨Or.inl rfl, ?_⟩
              intro hk
              exact hnkey ((List.Sublist.subset c2) hk)
            · exact Or.inl h
            · exact Or.inr ⟨Or.inr h1, h2⟩
          · rintro (h | ⟨h1 | h1, h2⟩)
            · exact Or.inl (Or.inr h)
            · exact Or.inl (Or.inl h1)
            · exact Or.inr ⟨h1, h2⟩
        · intro hnd3
          refine c5 ?_
          rw [(hrqperm.map Prod.snd).nodup_iff]
          rw [List.map_cons, List.nodup_cons]
          refine ⟨?_, hnd3⟩
          intro hmem
          rw [List.mem_map] at hmem
          obtain ⟨r, hr, hr2⟩ := hmem
          exact hdisj r hr (hr2 ▸ List.mem_cons_self _ _)
        · rw [c6, hrqperm.length_eq]
          simp only [List.length_cons]
          omega
      · -- the entry stays, with the dependency removed
        have hstep : releaseWaiting events done ((n, ws) :: rest) rq =
            ((n, ws.filter (fun d => !(d == done))) :: (releaseWaiting events done rest rq).1,
              (releaseWaiting events done rest rq).2) := by
          rw [releaseWaiting, if_pos hcont, if_neg hempty]
        rw [hstep]
        obtain ⟨c1, c2, c3, c4, c5, c6⟩ := ih rq hwrest hwnd2
          (fun r hr hk => hdisj r hr (List.mem_cons_of_mem _ hk))
        refine ⟨?_, ?_, ?_, ?_, c5, ?_⟩
        · intro e he
          cases he with
          | head =>
            refine ⟨hQ', hnm', ?_, ?_⟩
            · show ws.filter (fun d => !(d == done)) =
                (depsOf events n).dedup.filter (fun d => decide (d ∉ comp ++ [done]))
              rw [hws']
              exact filter_done_merge _ _ _
            · intro h0
              have h0' : ws.filter (fun d => !(d == done)) = [] := h0
              rw [h0'] at hempty
              exact hempty rfl
          | tail _ hmem => exact c1 _ hmem
        · simp only [List.map_cons]
          exact List.Sublist.cons₂ n c2
        · intro r hr
          cases c3 r hr with
          | inl h => exact Or.inl h
          | inr h =>
            obtain ⟨q1, q2, q3, q4, q5⟩ := h
            exact Or.inr ⟨q1, q2, q3, q4, List.mem_cons_of_mem _ q5⟩
        · intro n2
          rw [c4 n2]
          simp only [List.map_cons, List.mem_cons]
          constructor
          · rintro (h | ⟨h1, h2⟩)
            · exact Or.inl h
            · refine Or.inr ⟨Or.inr h1, ?_⟩
              rintro (h3 | h3)
              · subst h3
                exact hnkey h1
              · exact h2 h3
          · rintro (h | ⟨h1 | h1, h2⟩)
            · exact Or.inl h
            · exfalso
              exact h2 (Or.inl h1)
            · refine Or.inr ⟨h1, ?_⟩
              intro h3
              exact h2 (Or.inr h3)
        · simp only [List.length_cons]
          omega
    · -- done does not occur in this entry: unchanged
      have hstep : releaseWaiting events done ((n, ws) :: rest) rq =
          ((n, ws) :: (releaseWaiting events done rest rq).1,
            (releaseWaiting events done rest rq).2) := by
        rw [releaseWaiting, if_neg hcont]
      rw [hstep]
      obtain ⟨c1, c2, c3, c4, c5, c6⟩ := ih rq hwrest hwnd2
        (fun r hr hk => hdisj r hr (List.mem_cons_of_mem _ hk))
      have hnotws : done ∉ ws := by
        intro hmem
        apply hcont
        simpa using hmem
      refine ⟨?_, ?_, ?_, ?_, c5, ?_⟩
      · intro e he
        cases he with
        | head =>
          refine ⟨hQ', hnm', ?_, hwsne'⟩
          show ws = (depsOf events n).dedup.filter (fun d => decide (d ∉ comp ++ [done]))
          rw [hws']
          refine filter_done_skip _ _ _ ?_
          rw [← hws']
          exact hnotws
        | tail _ hmem => exact c1 _ hmem
      · simp only [List.map_cons]
        exact List.Sublist.cons₂ n c2
      · intro r hr
        cases c3 r hr with
        | inl h => exact Or.inl h
        | inr h =>
          obtain ⟨q1, q2, q3, q4, q5⟩ := h
          exact Or.inr ⟨q1, q2, q3, q4, List.mem_cons_of_mem _ q5⟩
      · intro n2
        rw [c4 n2]
        simp only [List.map_cons, List.mem_cons]
        constructor
        · rintro (h | ⟨h1, h2⟩)
          · exact Or.inl h
          · refine Or.inr ⟨Or.inr h1, ?_⟩
            rintro (h3 | h3)
            · subst h3
              exact hnkey h1
            · exact h2 h3
        · rintro (h | ⟨h1 | h1, h2⟩)
          · exact Or.inl h
          · exfalso
            exact h2 (Or.inl h1)
          · refine Or.inr ⟨h1, ?_⟩
            intro h3
            exact h2 (Or.inr h3)
      · simp only [List.length_cons]
        omega

theorem retireLoop_spec (events : List Event) (total : Nat) (time : Nat)
    (sched : List (String × Nat × Nat)) :
    ∀ (act : List (Nat × String × Nat)) (res : Int) (w : List (String × List String))
      (rq : List (Int × String)) (comp : List String),
    SimInv events total ⟨time, rq, w, act, res, sched, comp⟩ →
    (SimInv events total ⟨time,
        (retireLoop events time act res w rq comp).2.2.2.1,
        (retireLoop events time act res w rq comp).2.2.1,
        (retireLoop events time act res w rq comp).1,
        (retireLoop events time act res w rq comp).2.1,
        sched,
        (retireLoop events time act res w rq comp).2.2.2.2⟩ ∧
      List.Sublist (retireLoop events time act res w rq comp).1 act ∧
      (retireLoop events time act res w rq comp).2.2.2.1.length +
        (retireLoop events time act res w rq comp).2.2.1.length =
        rq.length + w.length ∧
      (∀ a rest2, act = a :: rest2 → a.1 = time →
        (retireLoop events time act res w rq comp).1.length < act.length)) := by
  intro act
  induction act with
  | nil =>
    intro res w rq comp hinv
    have hnil : retireLoop events time [] res w rq comp = ([], res, w, rq, comp) := rfl
    rw [hnil]
    refine ⟨hinv, List.Sublist.refl _, rfl, ?_⟩
    intro a rest2 h
    exact absurd h (List.noConfusion)
  | cons hd rest ih =>
    intro res w rq comp hinv
    obtain ⟨et, n, rr⟩ := hd
    by_cases het : et = time
    · -- the head retires: release it and recurse
      have hstep : retireLoop events time ((et, n, rr) :: rest) res w rq comp =
          retireLoop events time rest (res - (rr : Int))
            (releaseWaiting events n w rq).1 (releaseWaiting events n w rq).2
            (comp ++ [n]) := by
        rw [retireLoop, if_pos het]
      obtain ⟨⟨s0, hs0⟩, hrr, _⟩ :=
        hinv.active_wf (et, n, rr) (List.mem_cons_self _ _)
      have hdisj0 : ∀ r ∈ rq, r.2 ∉ w.map (fun e => e.1) := by
        intro r hr hk
        rw [List.mem_map] at hk
        obtain ⟨e, he, hke⟩ := hk
        exact hinv.ready_waiting_disj r hr e he hke.symm
      obtain ⟨c1, c2, c3, c4, c5, c6⟩ :=
        releaseWaiting_spec events n comp (fun m => ∀ x ∈ sched, x.1 ≠ m) w rq
          (fun e he =>
            ⟨(hinv.waiting_wf e he).2.1, (hinv.waiting_wf e he).1,
              (hinv.waiting_wf e he).2.2.1, (hinv.waiting_wf e he).2.2.2⟩)
          hinv.waiting_nodup hdisj0
      have hinv1 : SimInv events total ⟨time, (releaseWaiting events n w rq).2,
          (releaseWaiting events n w rq).1, rest, res - (rr : Int), sched, comp ++ [n]⟩ := by
        refine ⟨hinv.sched_keys_nodup, hinv.sched_names, ?_, hinv.dep_end, ?_, ?_, ?_,
          ?_, hinv.res_bound, ?_, ?_, ?_, ?_, ?_, ?_, ?_⟩
        · -- sched_active_or_done
          intro x hx
          cases hinv.sched_active_or_done x hx with
          | inl h =>
            cases h with
            | head =>
              right
              exact le_of_eq het
            | tail _ hmem => exact Or.inl hmem
          | inr h => exact Or.inr h
        · -- active_wf
          intro a ha
          exact hinv.active_wf a (List.mem_cons_of_mem _ ha)
        · -- active_nodup
          exact (List.nodup_cons.mp hinv.active_nodup).2
        · -- active_sorted
          exact (List.sorted_cons.mp hinv.active_sorted).2
        · -- res_exact
          have hre := hinv.res_exact
          simp only [List.map_cons, List.sum_cons] at hre
          rw [hre]
          push_cast
          ring
        · -- completed_iff
          intro c
          constructor
          · intro hc
            rw [List.mem_append] at hc
            cases hc with
            | inl h =>
              obtain ⟨hsch, hnact⟩ := (hinv.completed_iff c).mp h
              refine ⟨hsch, ?_⟩
              intro hmem
              rw [List.mem_map] at hmem
              obtain ⟨a, ha, hka⟩ := hmem
              exact hnact (List.mem_map.mpr ⟨a, List.mem_cons_of_mem _ ha, hka⟩)
            | inr h =>
              have hcn : c = n := List.mem_singleton.mp h
              subst hcn
              refine ⟨⟨(c, s0, et), hs0, rfl⟩, ?_⟩
              have hnd := hinv.active_nodup
              rw [List.map_cons, List.nodup_cons] at hnd
              exact hnd.1
          · rintro ⟨hsch, hnact⟩
            by_cases hcn : c = n
            · subst hcn
              exact List.mem_append_right _ (List.mem_singleton.mpr rfl)
            · refine List.mem_append_left _ ((hinv.completed_iff c).mpr ⟨hsch, ?_⟩)
              intro hmem
              rw [List.map_cons, List.mem_cons] at hmem
              cases hmem with
              | inl h => exact hcn h
              | inr h => exact hnact h
        · -- ready_wf
          intro r hr
          cases c3 r hr with
          | inl h =>
            obtain ⟨q1, q2, q3, q4⟩ := hinv.ready_wf r h
            exact ⟨q1, q2, q3, fun d hd => List.mem_append_left _ (q4 d hd)⟩
          | inr h =>
            obtain ⟨q1, q2, q3, q4, _⟩ := h
            exact ⟨q2, q3, q1, q4⟩
        · -- ready_nodup
          exact c5 hinv.ready_nodup
        · -- waiting_wf
          intro e he
          obtain ⟨q1, q2, q3, q4⟩ := c1 e he
          exact ⟨q2, q1, q3, q4⟩
        · -- waiting_nodup
          exact List.Nodup.sublist c2 hinv.waiting_nodup
        · -- ready_waiting_disj
          intro r hr e he heq
          have hek : e.1 ∈ (releaseWaiting events n w rq).1.map (fun x => x.1) :=
            List.mem_map_of_mem _ he
          have hrk : r.2 ∈ (releaseWaiting events n w rq).2.map Prod.snd :=
            List.mem_map_of_mem _ hr
          cases (c4 r.2).mp hrk with
          | inl h =>
            rw [List.mem_map] at h
            obtain ⟨r0, hr0, hr02⟩ := h
            have : r.2 ∈ w.map (fun x => x.1) := by
              rw [heq]
              exact (List.Sublist.subset c2) hek
            exact hdisj0 r0 hr0 (hr02 ▸ this)
          | inr h =>
            exact h.2 (heq ▸ hek)
        · -- cover
          intro n2 hn2
          cases hinv.cover n2 hn2 with
          | inl h => exact Or.inl h
          | inr h =>
            cases h with
            | inl h2 =>
              refine Or.inr (Or.inl ?_)
              exact (c4 n2).mpr (Or.inl h2)
            | inr h2 =>
              obtain ⟨e, he, hke⟩ := h2
              by_cases hmem : n2 ∈ (releaseWaiting events n w rq).1.map (fun x => x.1)
              · rw [List.mem_map] at hmem
                obtain ⟨e2, he2, hke2⟩ := hmem
                exact Or.inr (Or.inr ⟨e2, he2, hke2⟩)
              · refine Or.inr (Or.inl ?_)
                refine (c4 n2).mpr (Or.inr ⟨?_, hmem⟩)
                exact List.mem_map.mpr ⟨e, he, hke⟩
      obtain ⟨d1, d2, d3, _⟩ := ih (res - (rr : Int)) (releaseWaiting events n w rq).1
        (releaseWaiting events n w rq).2 (comp ++ [n]) hinv1
      rw [hstep]
      refine ⟨d1, List.Sublist.cons _ d2, ?_, ?_⟩
      · rw [d3]
        omega
      · intro a rest2 _ _
        have hlen := List.Sublist.length_le d2
        simp only [List.length_cons]
        omega
    · -- the head has a later end time: nothing retires
      have hstep : retireLoop events time ((et, n, rr) :: rest) res w rq comp =
          ((et, n, rr) :: rest, res, w, rq, comp) := by
        rw [retireLoop, if_neg het]
      rw [hstep]
      refine ⟨hinv, List.Sublist.refl _, rfl, ?_⟩
      intro a rest2 hcons ha
      exfalso
      rw [List.cons.injEq] at hcons
      apply het
      rw [← hcons.1] at ha
      exact ha

theorem allocLoop_spec (events : List Event) (total : Nat) (time : Nat)
    (w : List (String × List String)) (comp : List String) :
    ∀ (rl queued : List (Int × String)) (flag : Bool)
      (sched : List (String × Nat × Nat)) (res : Int) (act : List (Nat × String × Nat)),
    SimInv events total ⟨time, queued ++ rl, w, act, res, sched, comp⟩ →
    ∃ s : Nat,
      SimInv events total ⟨time,
        (allocLoop events total time rl sched res act queued flag).2.2.2.1, w,
        (allocLoop events total time rl sched res act queued flag).2.2.1,
        (allocLoop events total time rl sched res act queued flag).2.1,
        (allocLoop events total time rl sched res act queued flag).1, comp⟩ ∧
      (allocLoop events total time rl sched res act queued flag).2.2.2.1.length + s =
        queued.length + rl.length ∧
      (allocLoop events total time rl sched res act queued flag).2.2.1.length =
        act.length + s ∧
      (allocLoop events total time rl sched res act queued flag).2.2.2.2 =
        (flag || decide (1 ≤ s)) := by
  intro rl
  induction rl with
  | nil =>
    intro queued flag sched res act hinv
    rw [List.append_nil] at hinv
    have hnil : allocLoop events total time [] sched res act queued flag =
        (sched, res, act, queued, flag) := rfl
    rw [hnil]
    refine ⟨0, hinv, ?_, ?_, ?_⟩
    · simp
    · simp
    · simp
  | cons hd rl' ih =>
    intro queued flag sched res act hinv
    obtain ⟨p, n⟩ := hd
    have hmem : (p, n) ∈ queued ++ (p, n) :: rl' :=
      List.mem_append_right _ (List.mem_cons_self _ _)
    have hnm : n ∈ names events := (hinv.ready_wf (p, n) hmem).1
    obtain ⟨ev, hev⟩ := lookupEvent_exists_of_mem_names hnm
    have hgetd : (lookupEvent events n).getD default = ev := by
      rw [hev]
      rfl
    have hstep : allocLoop events total time ((p, n) :: rl') sched res act queued flag =
        (if res + ((((lookupEvent events n).getD default).resources_required : Nat) : Int) ≤
            (total : Int) then
          allocLoop events total time rl'
            (sched ++ [(n,
              max time (((((lookupEvent events n).getD default).dependencies).map
                (fun d => (schedEnd sched d).getD 0)).foldr max 0),
              max time (((((lookupEvent events n).getD default).dependencies).map
                (fun d => (schedEnd sched d).getD 0)).foldr max 0) +
                ((lookupEvent events n).getD default).duration)])
            (res + ((((lookupEvent events n).getD default).resources_required : Nat) : Int))
            (List.orderedInsert aleq
              (max time (((((lookupEvent events n).getD default).dependencies).map
                (fun d => (schedEnd sched d).getD 0)).foldr max 0) +
                ((lookupEvent events n).getD default).duration,
               n, ((lookupEvent events n).getD default).resources_required) act)
            queued true
        else
          allocLoop events total time rl' sched res act (queued ++ [(p, n)]) flag) := rfl
    rw [hstep, hgetd]
    by_cases hfit : res + ((ev.resources_required : Nat) : Int) ≤ (total : Int)
    · rw [if_pos hfit]
      have hinv2 := admit_step events total time queued rl' p n w act res sched comp ev
        hev hinv hfit
      obtain ⟨s', e1, e2, e3, e4⟩ := ih queued true
        (sched ++ [(n,
          max time ((ev.dependencies.map (fun d => (schedEnd sched d).getD 0)).foldr max 0),
          max time ((ev.dependencies.map (fun d => (schedEnd sched d).getD 0)).foldr max 0) +
            ev.duration)])
        (res + (ev.resources_required : Int))
        (List.orderedInsert aleq
          (max time ((ev.dependencies.map (fun d => (schedEnd sched d).getD 0)).foldr max 0) +
            ev.duration, n, ev.resources_required) act)
        hinv2
      refine ⟨s' + 1, e1, ?_, ?_, ?_⟩
      · simp only [List.length_cons]
        omega
      · have hoi := (List.perm_orderedInsert aleq
          (max time ((ev.dependencies.map (fun d => (schedEnd sched d).getD 0)).foldr max 0) +
            ev.duration, n, ev.resources_required) act).length_eq
        simp only [List.length_cons] at hoi
        omega
      · have h1 : decide (1 ≤ s' + 1) = true :=
          decide_eq_true (Nat.succ_le_succ (Nat.zero_le _))
        rw [e4, h1]
        simp
    · rw [if_neg hfit]
      have hl : queued ++ (p, n) :: rl' = (queued ++ [(p, n)]) ++ rl' := by
        simp
      rw [hl] at hinv
      obtain ⟨s', e1, e2, e3, e4⟩ := ih (queued ++ [(p, n)]) flag sched res act hinv
      refine ⟨s', e1, ?_, e3, e4⟩
      simp only [List.length_append, List.length_cons, List.length_nil] at e2 ⊢
      omega

theorem aleq_fst_le {a b : Nat × String × Nat} (h : aleq a b) : a.1 ≤ b.1 := by
  rcases h with h | ⟨h, _⟩
  · omega
  · omega

theorem advance_step (events : List Event) (total : Nat) (time : Nat)
    (rq : List (Int × String)) (w : List (String × List String))
    (a : Nat × String × Nat) (rest : List (Nat × String × Nat)) (res : Int)
    (sched : List (String × Nat × Nat)) (comp : List String)
    (hinv : SimInv events total ⟨time, rq, w, a :: rest, res, sched, comp⟩) :
    SimInv events total ⟨a.1, rq, w, a :: rest, res, sched, comp⟩ := by
  have htime : time ≤ a.1 := (hinv.active_wf a (List.mem_cons_self _ _)).2.2
  have hhead : ∀ b ∈ rest, aleq a b := (List.sorted_cons.mp hinv.active_sorted).1
  refine ⟨hinv.sched_keys_nodup, hinv.sched_names, ?_, hinv.dep_end, ?_,
    hinv.active_nodup, hinv.active_sorted, hinv.res_exact, hinv.res_bound,
    hinv.completed_iff, hinv.ready_wf, hinv.ready_nodup, hinv.waiting_wf,
    hinv.waiting_nodup, hinv.ready_waiting_disj, hinv.cover⟩
  · intro x hx
    cases hinv.sched_active_or_done x hx with
    | inl h => exact Or.inl h
    | inr h => exact Or.inr (le_trans h htime)
  · intro b hb
    refine ⟨(hinv.active_wf b hb).1, (hinv.active_wf b hb).2.1, ?_⟩
    cases hb with
    | head => exact le_refl _
    | tail _ hmem => exact aleq_fst_le (hhead b hmem)

theorem stuck_impossible (events : List Event) (total : Nat)
    (rank : String → Nat)
    (hrank : ∀ n ∈ names events, ∀ d ∈ depsOf events n, rank d < rank n)
    (hres : ∀ n ∈ names events, ∀ d ∈ depsOf events n, d ∈ names events)
    (st : SimState) (hinv : SimInv events total st)
    (hready : st.readyQ = []) (hact : st.active = [])
    (hw : st.waiting ≠ []) : False := by
  have aux : ∀ k : Nat, ∀ e ∈ st.waiting, rank e.1 < k → False := by
    intro k
    induction k with
    | zero =>
      intro e _ hlt
      exact absurd hlt (Nat.not_lt_zero _)
    | succ k ihk =>
      intro e he hlt
      obtain ⟨hnm, _, hws, hwsne⟩ := hinv.waiting_wf e he
      obtain ⟨d, hd⟩ := List.exists_mem_of_ne_nil _ hwsne
      rw [hws, List.mem_filter] at hd
      have hddep : d ∈ depsOf events e.1 := List.mem_dedup.mp hd.1
      have hdnc : d ∉ st.completed := of_decide_eq_true hd.2
      have hdn : d ∈ names events := hres e.1 hnm d hddep
      cases hinv.cover d hdn with
      | inl h =>
        apply hdnc
        refine (hinv.completed_iff d).mpr ⟨h, ?_⟩
        rw [hact]
        exact List.not_mem_nil d
      | inr h =>
        cases h with
        | inl h2 =>
          rw [hready] at h2
          exact absurd h2 (List.not_mem_nil d)
        | inr h2 =>
          obtain ⟨e2, he2, hke2⟩ := h2
          refine ihk e2 he2 ?_
          rw [hke2]
          have := hrank e.1 hnm d hddep
          omega
  obtain ⟨e, he⟩ := List.exists_mem_of_ne_nil _ hw
  exact aux (rank e.1 + 1) e he (Nat.lt_succ_self _)

theorem simLoop_step_cons (events : List Event) (total fuel : Nat) (st : SimState)
    (a : Nat × String × Nat) (rest : List (Nat × String × Nat))
    (hcondf : (st.readyQ.isEmpty && st.active.isEmpty && st.waiting.isEmpty) = false)
    (h : (allocLoop events total st.time
        (retireLoop events st.time st.active st.activeRes st.waiting st.readyQ st.completed).2.2.2.1
        st.sched
        (retireLoop events st.time st.active st.activeRes st.waiting st.readyQ st.completed).2.1
        (retireLoop events st.time st.active st.activeRes st.waiting st.readyQ st.completed).1
        [] false).2.2.1 = a :: rest) :
    simLoop events total (fuel + 1) st =
      simLoop events total fuel
        ⟨a.1,
          (allocLoop events total st.time
            (retireLoop events st.time st.active st.activeRes st.waiting st.readyQ st.completed).2.2.2.1
            st.sched
            (retireLoop events st.time st.active st.activeRes st.waiting st.readyQ st.completed).2.1
            (retireLoop events st.time st.active st.activeRes st.waiting st.readyQ st.completed).1
            [] false).2.2.2.1,
          (retireLoop events st.time st.active st.activeRes st.waiting st.readyQ st.completed).2.2.1,
          a :: rest,
          (allocLoop events total st.time
            (retireLoop events st.time st.active st.activeRes st.waiting st.readyQ st.completed).2.2.2.1
            st.sched
            (retireLoop events st.time st.active st.activeRes st.waiting st.readyQ st.completed).2.1
            (retireLoop events st.time st.active st.activeRes st.waiting st.readyQ st.completed).1
            [] false).2.1,
          (allocLoop events total st.time
            (retireLoop events st.time st.active st.activeRes st.waiting st.readyQ st.completed).2.2.2.1
            st.sched
            (retireLoop events st.time st.active st.activeRes st.waiting st.readyQ st.completed).2.1
            (retireLoop events st.time st.active st.activeRes st.waiting st.readyQ st.completed).1
            [] false).1,
          (retireLoop events st.time st.active st.activeRes st.waiting st.readyQ st.completed).2.2.2.2⟩ := by
  simp [simLoop, hcondf, h]

theorem simLoop_step_exit (events : List Event) (total fuel : Nat) (st : SimState)
    (hcondf : (st.readyQ.isEmpty && st.active.isEmpty && st.waiting.isEmpty) = false)
    (h : (allocLoop events total st.time
        (retireLoop events st.time st.active st.activeRes st.waiting st.readyQ st.completed).2.2.2.1
        st.sched
        (retireLoop events st.time st.active st.activeRes st.waiting st.readyQ st.completed).2.1
        (retireLoop events st.time st.active st.activeRes st.waiting st.readyQ st.completed).1
        [] false).2.2.1 = [])
    (hexit : (!(allocLoop events total st.time
        (retireLoop events st.time st.active st.activeRes st.waiting st.readyQ st.completed).2.2.2.1
        st.sched
        (retireLoop events st.time st.active st.activeRes st.waiting st.readyQ st.completed).2.1
        (retireLoop events st.time st.active st.activeRes st.waiting st.readyQ st.completed).1
        [] false).2.2.2.1.isEmpty &&
      !(allocLoop events total st.time
        (retireLoop events st.time st.active st.activeRes st.waiting st.readyQ st.completed).2.2.2.1
        st.sched
        (retireLoop events st.time st.active st.activeRes st.waiting st.readyQ st.completed).2.1
        (retireLoop events st.time st.active st.activeRes st.waiting st.readyQ st.completed).1
        [] false).2.2.2.2) = true) :
    simLoop events total (fuel + 1) st =
      some (allocLoop events total st.time
        (retireLoop events st.time st.active st.activeRes st.waiting st.readyQ st.completed).2.2.2.1
        st.sched
        (retireLoop events st.time st.active st.activeRes st.waiting st.readyQ st.completed).2.1
        (retireLoop events st.time st.active st.activeRes st.waiting st.readyQ st.completed).1
        [] false).1 := by
  simp [simLoop, hcondf, h, hexit]

theorem simLoop_step_idle (events : List Event) (total fuel : Nat) (st : SimState)
    (hcondf : (st.readyQ.isEmpty && st.active.isEmpty && st.waiting.isEmpty) = false)
    (h : (allocLoop events total st.time
        (retireLoop events st.time st.active st.activeRes st.waiting st.readyQ st.completed).2.2.2.1
        st.sched
        (retireLoop events st.time st.active st.activeRes st.waiting st.readyQ st.completed).2.1
        (retireLoop events st.time st.active st.activeRes st.waiting st.readyQ st.completed).1
        [] false).2.2.1 = [])
    (hexitf : (!(allocLoop events total st.time
        (retireLoop events st.time st.active st.activeRes st.waiting st.readyQ st.completed).2.2.2.1
        st.sched
        (retireLoop events st.time st.active st.activeRes st.waiting st.readyQ st.completed).2.1
        (retireLoop events st.time st.active st.activeRes st.waiting st.readyQ st.completed).1
        [] false).2.2.2.1.isEmpty &&
      !(allocLoop events total st.time
        (retireLoop events st.time st.active st.activeRes st.waiting st.readyQ st.completed).2.2.2.1
        st.sched
        (retireLoop events st.time st.active st.activeRes st.waiting st.readyQ st.completed).2.1
        (retireLoop events st.time st.active st.activeRes st.waiting st.readyQ st.completed).1
        [] false).2.2.2.2) = false) :
    simLoop events total (fuel + 1) st =
      simLoop events total fuel
        ⟨st.time,
          (allocLoop events total st.time
            (retireLoop events st.time st.active st.activeRes st.waiting st.readyQ st.completed).2.2.2.1
            st.sched
            (retireLoop events st.time st.active st.activeRes st.waiting st.readyQ st.completed).2.1
            (retireLoop events st.time st.active st.activeRes st.waiting st.readyQ st.completed).1
            [] false).2.2.2.1,
          (retireLoop events st.time st.active st.activeRes st.waiting st.readyQ st.completed).2.2.1,
          [],
          (allocLoop events total st.time
            (retireLoop events st.time st.active st.activeRes st.waiting st.readyQ st.completed).2.2.2.1
            st.sched
            (retireLoop events st.time st.active st.activeRes st.waiting st.readyQ st.completed).2.1
            (retireLoop events st.time st.active st.activeRes st.waiting st.readyQ st.completed).1
            [] false).2.1,
          (allocLoop events total st.time
            (retireLoop events st.time st.active st.activeRes st.waiting st.readyQ st.completed).2.2.2.1
            st.sched
            (retireLoop events st.time st.active st.activeRes st.waiting st.readyQ st.completed).2.1
            (retireLoop events st.time st.active st.activeRes st.waiting st.readyQ st.completed).1
            [] false).1,
          (retireLoop events st.time st.active st.activeRes st.waiting st.readyQ st.completed).2.2.2.2⟩ := by
  simp [simLoop, hcondf, h, hexitf]

theorem simLoop_run (events : List Event) (total : Nat)
    (rank : String → Nat)
    (hrank : ∀ n ∈ names events, ∀ d ∈ depsOf events n, rank d < rank n)
    (hres2 : ∀ n ∈ names events, ∀ d ∈ depsOf events n, d ∈ names events) :
    ∀ (fuel : Nat) (st : SimState),
    SimInv events total st →
    (∀ a rest, st.active = a :: rest → a.1 ≤ st.time) →
    simMeasure st < fuel →
    ∃ stf : SimState, SimInv events total stf ∧
      simLoop events total fuel st = some stf.sched := by
  intro fuel
  induction fuel with
  | zero =>
    intro st _ _ hmeas
    exact absurd hmeas (Nat.not_lt_zero _)
  | succ fuel ihf =>
    intro st hinv hhd hmeas
    by_cases hcond : (st.readyQ.isEmpty && st.active.isEmpty && st.waiting.isEmpty) = true
    · -- all queues are empty: the loop exits and returns the schedule
      refine ⟨st, hinv, ?_⟩
      rw [simLoop, if_pos hcond]
    · have hcondf : (st.readyQ.isEmpty && st.active.isEmpty && st.waiting.isEmpty) = false := by
        rwa [Bool.not_eq_true] at hcond
      have hpos : 1 ≤ simMeasure st := by
        by_contra hc
        apply hcond
        have h0 : simMeasure st = 0 := by omega
        rw [simMeasure] at h0
        have h1 : st.readyQ = [] := List.length_eq_zero.mp (by omega)
        have h2 : st.waiting = [] := List.length_eq_zero.mp (by omega)
        have h3 : st.active = [] := List.length_eq_zero.mp (by omega)
        rw [h1, h2, h3]
        rfl
      rw [simMeasure] at hpos
      obtain ⟨hinv1, hsub, hcnt, hstrict⟩ :=
        retireLoop_spec events total st.time st.sched st.active st.activeRes st.waiting
          st.readyQ st.completed hinv
      obtain ⟨s, e1, e2, e3, e4⟩ :=
        allocLoop_spec events total st.time
          (retireLoop events st.time st.active st.activeRes st.waiting st.readyQ st.completed).2.2.1
          (retireLoop events st.time st.active st.activeRes st.waiting st.readyQ st.completed).2.2.2.2
          (retireLoop events st.time st.active st.activeRes st.waiting st.readyQ st.completed).2.2.2.1
          [] false st.sched
          (retireLoop events st.time st.active st.activeRes st.waiting st.readyQ st.completed).2.1
          (retireLoop events st.time st.active st.activeRes st.waiting st.readyQ st.completed).1
          hinv1
      simp only [List.length_nil, Nat.zero_add] at e2
      have hlen1 := List.Sublist.length_le hsub
      rw [simMeasure] at hmeas
      cases hact2 : (allocLoop events total st.time
          (retireLoop events st.time st.active st.activeRes st.waiting st.readyQ st.completed).2.2.2.1
          st.sched
          (retireLoop events st.time st.active st.activeRes st.waiting st.readyQ st.completed).2.1
          (retireLoop events st.time st.active st.activeRes st.waiting st.readyQ st.completed).1
          [] false).2.2.1 with
      | cons a rest =>
        -- work was admitted or is still running: advance time to the next end time
        rw [hact2] at e1 e3
        simp only [List.length_cons] at e3
        have hinv3 := advance_step events total st.time _ _ a rest _ _ _ e1
        have hstep := simLoop_step_cons events total fuel st a rest hcondf hact2
        have hdec : s ≥ 1 ∨ (retireLoop events st.time st.active st.activeRes st.waiting
            st.readyQ st.completed).1.length < st.active.length := by
          cases hA : st.active with
          | nil =>
            left
            have hsubnil : List.Sublist (retireLoop events st.time st.active st.activeRes st.waiting
                st.readyQ st.completed).1 ([] : List (Nat × String × Nat)) := by
              rw [← hA]
              exact hsub
            have hR0 := List.sublist_nil.mp hsubnil
            rw [hR0] at e3
            simp only [List.length_nil] at e3
            omega
          | cons a0 rest0 =>
            right
            rw [hA] at hstrict
            refine hstrict a0 rest0 rfl ?_
            have h1 := hhd a0 rest0 hA
            have h2 := (hinv.active_wf a0 (by rw [hA]; exact List.mem_cons_self _ _)).2.2
            omega
        have hμ3 : simMeasure ⟨a.1,
            (allocLoop events total st.time
              (retireLoop events st.time st.active st.activeRes st.waiting st.readyQ st.completed).2.2.2.1
              st.sched
              (retireLoop events st.time st.active st.activeRes st.waiting st.readyQ st.completed).2.1
              (retireLoop events st.time st.active st.activeRes st.waiting st.readyQ st.completed).1
              [] false).2.2.2.1,
            (retireLoop events st.time st.active st.activeRes st.waiting st.readyQ st.completed).2.2.1,
            a :: rest,
            (allocLoop events total st.time
              (retireLoop events st.time st.active st.activeRes st.waiting st.readyQ st.completed).2.2.2.1
              st.sched
              (retireLoop events st.time st.active st.activeRes st.waiting st.readyQ st.completed).2.1
              (retireLoop events st.time st.active st.activeRes st.waiting st.readyQ st.completed).1
              [] false).2.1,
            (allocLoop events total st.time
              (retireLoop events st.time st.active st.activeRes st.waiting st.readyQ st.completed).2.2.2.1
              st.sched
              (retireLoop events st.time st.active st.activeRes st.waiting st.readyQ st.completed).2.1
              (retireLoop events st.time st.active st.activeRes st.waiting st.readyQ st.completed).1
              [] false).1,
            (retireLoop events st.time st.active st.activeRes st.waiting st.readyQ st.completed).2.2.2.2⟩ =
            2 * (allocLoop events total st.time
              (retireLoop events st.time st.active st.activeRes st.waiting st.readyQ st.completed).2.2.2.1
              st.sched
              (retireLoop events st.time st.active st.activeRes st.waiting st.readyQ st.completed).2.1
              (retireLoop events st.time st.active st.activeRes st.waiting st.readyQ st.completed).1
              [] false).2.2.2.1.length +
            2 * (retireLoop events st.time st.active st.activeRes st.waiting st.readyQ st.completed).2.2.1.length +
            (rest.length + 1) := rfl
        obtain ⟨stf, f1, f2⟩ := ihf _ hinv3 (by
          intro a' rest' h'
          rw [List.cons.injEq] at h'
          rw [← h'.1]) (by rw [hμ3]; omega)
        exact ⟨stf, f1, by rw [hstep]; exact f2⟩
      | nil =>
        by_cases hexit : (!(allocLoop events total st.time
            (retireLoop events st.time st.active st.activeRes st.waiting st.readyQ st.completed).2.2.2.1
            st.sched
            (retireLoop events st.time st.active st.activeRes st.waiting st.readyQ st.completed).2.1
            (retireLoop events st.time st.active st.activeRes st.waiting st.readyQ st.completed).1
            [] false).2.2.2.1.isEmpty &&
          !(allocLoop events total st.time
            (retireLoop events st.time st.active st.activeRes st.waiting st.readyQ st.completed).2.2.2.1
            st.sched
            (retireLoop events st.time st.active st.activeRes st.waiting st.readyQ st.completed).2.1
            (retireLoop events st.time st.active st.activeRes st.waiting st.readyQ st.completed).1
            [] false).2.2.2.2) = true
        · -- deadlock break: the loop exits with the partial schedule built so far
          rw [hact2] at e1
          refine ⟨⟨st.time,
            (allocLoop events total st.time
              (retireLoop events st.time st.active st.activeRes st.waiting st.readyQ st.completed).2.2.2.1
              st.sched
              (retireLoop events st.time st.active st.activeRes st.waiting st.readyQ st.completed).2.1
              (retireLoop events st.time st.active st.activeRes st.waiting st.readyQ st.completed).1
              [] false).2.2.2.1,
            (retireLoop events st.time st.active st.activeRes st.waiting st.readyQ st.completed).2.2.1,
            [],
            (allocLoop events total st.time
              (retireLoop events st.time st.active st.activeRes st.waiting st.readyQ st.completed).2.2.2.1
              st.sched
              (retireLoop events st.time st.active st.activeRes st.waiting st.readyQ st.completed).2.1
              (retireLoop events st.time st.active st.activeRes st.waiting st.readyQ st.completed).1
              [] false).2.1,
            (allocLoop events total st.time
              (retireLoop events st.time st.active st.activeRes st.waiting st.readyQ st.completed).2.2.2.1
              st.sched
              (retireLoop events st.time st.active st.activeRes st.waiting st.readyQ st.completed).2.1
              (retireLoop events st.time st.active st.activeRes st.waiting st.readyQ st.completed).1
              [] false).1,
            (retireLoop events st.time st.active st.activeRes st.waiting st.readyQ st.completed).2.2.2.2⟩,
            e1, ?_⟩
          exact simLoop_step_exit events total fuel st hcondf hact2 hexit
        · have hexitf : (!(allocLoop events total st.time
              (retireLoop events st.time st.active st.activeRes st.waiting st.readyQ st.completed).2.2.2.1
              st.sched
              (retireLoop events st.time st.active st.activeRes st.waiting st.readyQ st.completed).2.1
              (retireLoop events st.time st.active st.activeRes st.waiting st.readyQ st.completed).1
              [] false).2.2.2.1.isEmpty &&
            !(allocLoop events total st.time
              (retireLoop events st.time st.active st.activeRes st.waiting st.readyQ st.completed).2.2.2.1
              st.sched
              (retireLoop events st.time st.active st.activeRes st.waiting st.readyQ st.completed).2.1
              (retireLoop events st.time st.active st.activeRes st.waiting st.readyQ st.completed).1
              [] false).2.2.2.2) = false := by
            rwa [Bool.not_eq_true] at hexit
          rw [hact2] at e1 e3
          simp only [List.length_nil] at e3
          have hs0 : s = 0 := by omega
          have hflag : (allocLoop events total st.time
              (retireLoop events st.time st.active st.activeRes st.waiting st.readyQ st.completed).2.2.2.1
              st.sched
              (retireLoop events st.time st.active st.activeRes st.waiting st.readyQ st.completed).2.1
              (retireLoop events st.time st.active st.activeRes st.waiting st.readyQ st.completed).1
              [] false).2.2.2.2 = false := by
            rw [e4, hs0]
            rfl
          have hrq2 : (allocLoop events total st.time
              (retireLoop events st.time st.active st.activeRes st.waiting st.readyQ st.completed).2.2.2.1
              st.sched
              (retireLoop events st.time st.active st.activeRes st.waiting st.readyQ st.completed).2.1
              (retireLoop events st.time st.active st.activeRes st.waiting st.readyQ st.completed).1
              [] false).2.2.2.1 = [] := by
            cases hq : (allocLoop events total st.time
                (retireLoop events st.time st.active st.activeRes st.waiting st.readyQ st.completed).2.2.2.1
                st.sched
                (retireLoop events st.time st.active st.activeRes st.waiting st.readyQ st.completed).2.1
                (retireLoop events st.time st.active st.activeRes st.waiting st.readyQ st.completed).1
                [] false).2.2.2.1 with
            | nil => rfl
            | cons q qs =>
              exfalso
              rw [hflag, hq] at hexitf
              simp at hexitf
          by_cases hw1 : (retireLoop events st.time st.active st.activeRes st.waiting
              st.readyQ st.completed).2.2.1 = []
          · -- everything drained: one more iteration exits normally
            have hstep := simLoop_step_idle events total fuel st hcondf hact2 hexitf
            have hμ4 : simMeasure ⟨st.time,
                (allocLoop events total st.time
                  (retireLoop events st.time st.active st.activeRes st.waiting st.readyQ st.completed).2.2.2.1
                  st.sched
                  (retireLoop events st.time st.active st.activeRes st.waiting st.readyQ st.completed).2.1
                  (retireLoop events st.time st.active st.activeRes st.waiting st.readyQ st.completed).1
                  [] false).2.2.2.1,
                (retireLoop events st.time st.active st.activeRes st.waiting st.readyQ st.completed).2.2.1,
                [],
                (allocLoop events total st.time
                  (retireLoop events st.time st.active st.activeRes st.waiting st.readyQ st.completed).2.2.2.1
                  st.sched
                  (retireLoop events st.time st.active st.activeRes st.waiting st.readyQ st.completed).2.1
                  (retireLoop events st.time st.active st.activeRes st.waiting st.readyQ st.completed).1
                  [] false).2.1,
                (allocLoop events total st.time
                  (retireLoop events st.time st.active st.activeRes st.waiting st.readyQ st.completed).2.2.2.1
                  st.sched
                  (retireLoop events st.time st.active st.activeRes st.waiting st.readyQ st.completed).2.1
                  (retireLoop events st.time st.active st.activeRes st.waiting st.readyQ st.completed).1
                  [] false).1,
                (retireLoop events st.time st.active st.activeRes st.waiting st.readyQ st.completed).2.2.2.2⟩ =
                2 * (allocLoop events total st.time
                  (retireLoop events st.time st.active st.activeRes st.waiting st.readyQ st.completed).2.2.2.1
                  st.sched
                  (retireLoop events st.time st.active st.activeRes st.waiting st.readyQ st.completed).2.1
                  (retireLoop events st.time st.active st.activeRes st.waiting st.readyQ st.completed).1
                  [] false).2.2.2.1.length +
                2 * (retireLoop events st.time st.active st.activeRes st.waiting
                  st.readyQ st.completed).2.2.1.length + 0 := rfl
            obtain ⟨stf, f1, f2⟩ := ihf _ e1 (by
              intro a' rest' h'
              exact absurd h' (List.noConfusion)) (by
              rw [hμ4, hrq2, hw1]
              simp only [List.length_nil]
              omega)
            exact ⟨stf, f1, by rw [hstep]; exact f2⟩
          · -- ready and active empty but tasks still waiting: impossible
            exact (stuck_impossible events total rank hrank hres2 _ e1 hrq2 rfl hw1).elim

theorem filter_length_split {α : Type} (p : α → Bool) :
    ∀ l : List α, (l.filter p).length + (l.filter (fun x => !(p x))).length = l.length := by
  intro l
  induction l with
  | nil => rfl
  | cons a l ih =>
    by_cases hp : p a
    · simp only [List.filter_cons, hp, Bool.not_true, if_true, List.length_cons]
      simp only [show (false = true) = False by simp, if_false]
      omega
    · have hp2 : p a = false := by
        rwa [Bool.not_eq_true] at hp
      simp only [List.filter_cons, hp2, Bool.not_false, if_true]
      simp only [show (false = true) = False by simp, if_false, List.length_cons]
      omega

theorem seedReady_foldl (events : List Event) :
    ∀ (l : List String) (acc : List (Int × String)),
    (l.foldl (fun rq n =>
      if (depsOf events n).isEmpty then
        List.orderedInsert pleq (priorityOf events n, n) rq
      else rq) acc).Perm
      (acc ++ (l.filter (fun n => (depsOf events n).isEmpty)).map
        (fun n => (priorityOf events n, n))) := by
  intro l
  induction l with
  | nil =>
    intro acc
    simp
  | cons n l' ih =>
    intro acc
    by_cases hp : (depsOf events n).isEmpty
    · have hfilter : (n :: l').filter (fun m => (depsOf events m).isEmpty) =
          n :: l'.filter (fun m => (depsOf events m).isEmpty) := by
        simp [List.filter_cons, hp]
      rw [List.foldl_cons, if_pos hp, hfilter, List.map_cons]
      refine (ih _).trans ?_
      refine (((List.perm_orderedInsert pleq (priorityOf events n, n) acc).append_right
        _).trans ?_)
      exact List.perm_middle.symm
    · have hp2 : (depsOf events n).isEmpty = false := by
        rwa [Bool.not_eq_true] at hp
      have hfilter : (n :: l').filter (fun m => (depsOf events m).isEmpty) =
          l'.filter (fun m => (depsOf events m).isEmpty) := by
        simp [List.filter_cons, hp2]
      rw [List.foldl_cons, if_neg hp, hfilter]
      exact ih acc

theorem seedReady_perm (events : List Event) (sorted : List String) :
    (seedReady events sorted).Perm
      ((sorted.filter (fun n => (depsOf events n).isEmpty)).map
        (fun n => (priorityOf events n, n))) := by
  have h := seedReady_foldl events sorted []
  rw [List.nil_append] at h
  exact h

theorem seedWaiting_keys (events : List Event) :
    ∀ sorted : List String,
    (seedWaiting events sorted).map (fun e => e.1) =
      sorted.filter (fun n => !(depsOf events n).isEmpty) := by
  intro sorted
  induction sorted with
  | nil => rfl
  | cons n l' ih =>
    by_cases hp : (depsOf events n).isEmpty
    · have h1 : seedWaiting events (n :: l') = seedWaiting events l' := by
        rw [seedWaiting, seedWaiting, List.filterMap_cons, if_pos hp]
      rw [h1, ih, List.filter_cons]
      simp [hp]
    · have h1 : seedWaiting events (n :: l') =
          (n, (depsOf events n).dedup) :: seedWaiting events l' := by
        rw [seedWaiting, seedWaiting, List.filterMap_cons, if_neg hp]
      rw [h1, List.map_cons, ih, List.filter_cons]
      simp only [Bool.not_eq_true] at hp
      simp [hp]

theorem seedWaiting_mem {events : List Event} {sorted : List String}
    {e : String × List String} (he : e ∈ seedWaiting events sorted) :
    e.1 ∈ sorted ∧ ¬(depsOf events e.1).isEmpty = true ∧
      e.2 = (depsOf events e.1).dedup := by
  rw [seedWaiting, List.mem_filterMap] at he
  obtain ⟨n, hn, hf⟩ := he
  by_cases hp : (depsOf events n).isEmpty
  · rw [if_pos hp] at hf
    exact absurd hf (Option.noConfusion)
  · rw [if_neg hp] at hf
    rw [Option.some.injEq] at hf
    cases hf
    exact ⟨hn, hp, rfl⟩

theorem seedWaiting_mem_of (events : List Event) {sorted : List String} {n : String}
    (hn : n ∈ sorted) (hp : ¬(depsOf events n).isEmpty = true) :
    (n, (depsOf events n).dedup) ∈ seedWaiting events sorted := by
  rw [seedWaiting, List.mem_filterMap]
  exact ⟨n, hn, by rw [if_neg hp]⟩

theorem simInv_init (events : List Event) (total : Nat)
    (hnd : (names events).Nodup)
    (sorted : List String) (hperm : sorted.Perm (names events)) :
    SimInv events total ⟨0, seedReady events sorted, seedWaiting events sorted,
      [], 0, [], []⟩ := by
  have hsortnd : sorted.Nodup := hperm.nodup_iff.mpr hnd
  have hreadyperm := seedReady_perm events sorted
  refine ⟨List.nodup_nil, ?_, ?_, ?_, ?_, ?_, ?_, ?_, ?_, ?_, ?_, ?_, ?_, ?_, ?_, ?_⟩
  · intro x hx
    exact absurd hx (List.not_mem_nil x)
  · intro x hx
    exact absurd hx (List.not_mem_nil x)
  · intro x hx
    exact absurd hx (List.not_mem_nil x)
  · intro a ha
    exact absurd ha (List.not_mem_nil a)
  · simp
  · simp
  · rfl
  · intro t
    simp
  · intro c
    simp
  · -- ready_wf
    intro r hr
    have hr2 := hreadyperm.subset hr
    rw [List.mem_map] at hr2
    obtain ⟨n, hn, hf⟩ := hr2
    rw [List.mem_filter] at hn
    subst hf
    refine ⟨hperm.subset hn.1, rfl, ?_, ?_⟩
    · intro x hx
      exact absurd hx (List.not_mem_nil x)
    · intro d hd
      rw [List.isEmpty_iff.mp hn.2] at hd
      exact absurd hd (List.not_mem_nil d)
  · -- ready_nodup
    have h1 := hreadyperm.map Prod.snd
    refine h1.nodup_iff.mpr ?_
    rw [List.map_map]
    have h2 : ((Prod.snd ∘ fun n => (priorityOf events n, n)) : String → String) = id := rfl
    rw [h2, List.map_id]
    exact hsortnd.filter _
  · -- waiting_wf
    intro e he
    obtain ⟨hn, hp, hded⟩ := seedWaiting_mem he
    refine ⟨hperm.subset hn, ?_, ?_, ?_⟩
    · intro x hx
      exact absurd hx (List.not_mem_nil x)
    · rw [hded]
      refine (List.filter_eq_self.mpr ?_).symm
      intro d _
      exact decide_eq_true (List.not_mem_nil d)
    · rw [hded]
      intro h0
      rw [List.dedup_eq_nil] at h0
      rw [h0] at hp
      exact hp rfl
  · -- waiting_nodup
    rw [seedWaiting_keys]
    exact hsortnd.filter _
  · -- ready_waiting_disj
    intro r hr e he heq
    have hr2 := hreadyperm.subset hr
    rw [List.mem_map] at hr2
    obtain ⟨n, hn, hf⟩ := hr2
    rw [List.mem_filter] at hn
    obtain ⟨_, hp, _⟩ := seedWaiting_mem he
    apply hp
    have h1 : e.1 = n := by
      rw [← heq, ← hf]
    rw [h1]
    exact hn.2
  · -- cover
    intro n hn
    have hns : n ∈ sorted := hperm.mem_iff.mpr hn
    by_cases hp : (depsOf events n).isEmpty
    · refine Or.inr (Or.inl ?_)
      rw [(hreadyperm.map Prod.snd).mem_iff, List.map_map]
      have h2 : ((Prod.snd ∘ fun n => (priorityOf events n, n)) : String → String) = id := rfl
      rw [h2, List.map_id, List.mem_filter]
      exact ⟨hns, hp⟩
    · exact Or.inr (Or.inr ⟨(n, (depsOf events n).dedup),
        seedWaiting_mem_of events hns hp, rfl⟩)

theorem topo_ok_facts (events : List Event) (hnd : (names events).Nodup)
    (sorted : List String) (hok : topological_sort events = .ok sorted) :
    (∀ e ∈ events, ∀ d ∈ e.dependencies, d ∈ names events) ∧
    sorted.Perm (names events) ∧
    (∀ n ∈ names events, ∀ d ∈ depsOf events n, sorted.indexOf d < sorted.indexOf n) := by
  cases hfu : findUnknown events with
  | some td =>
    rw [topological_sort, hfu] at hok
    simp at hok
  | none =>
    rw [topological_sort, hfu] at hok
    have hok2 : (if ((topoBatches events).flatten).length = events.length
        then Except.ok (topoBatches events).flatten
        else (Except.error SchedError.cycle : Except SchedError (List String))) =
        Except.ok sorted := hok
    by_cases hlen : ((topoBatches events).flatten).length = events.length
    · rw [if_pos hlen] at hok2
      rw [Except.ok.injEq] at hok2
      subst hok2
      have hres := resolved_of_findUnknown_eq_none hfu
      obtain ⟨deg2, hfin⟩ := topoBatches_facts events hnd
      have hsup : ∀ a ∈ (topoBatches events).flatten, a ∈ names events := hfin.acc_names
      have hnamelen : (names events).length = events.length := by simp [names]
      have hsubperm : List.Subperm (topoBatches events).flatten (names events) :=
        hfin.acc_nodup.subperm (fun a ha => hsup a ha)
      have hperm : ((topoBatches events).flatten).Perm (names events) :=
        hsubperm.perm_of_length_le (by omega)
      refine ⟨hres, hperm, ?_⟩
      intro n hn d hd
      have hin : n ∈ (topoBatches events).flatten := hperm.mem_iff.mpr hn
      obtain ⟨⟨i, hi⟩, hget⟩ := List.mem_iff_get.mp hin
      have hdtake : d ∈ ((topoBatches events).flatten).take i := by
        refine hfin.acc_order i hi d ?_
        rw [hget]
        exact hd
      have h1 : ((topoBatches events).flatten).indexOf d < i :=
        indexOf_lt_of_mem_take hdtake
      have h2 : ((topoBatches events).flatten).indexOf n = i :=
        indexOf_eq_of_get hfin.acc_nodup hi hget
      omega
    · rw [if_neg hlen] at hok2
      exact absurd hok2 (by simp)

theorem runSim_inv (events : List Event) (total : Nat)
    (hnd : (names events).Nodup)
    (sorted : List String) (hok : topological_sort events = .ok sorted) :
    ∃ stf : SimState, SimInv events total stf ∧
      runSim events total sorted = some stf.sched := by
  obtain ⟨hres3, hperm, horder⟩ := topo_ok_facts events hnd sorted hok
  have hres2 : ∀ n ∈ names events, ∀ d ∈ depsOf events n, d ∈ names events := by
    intro n hn d hd
    obtain ⟨ev, hevmem, hevname⟩ := mem_names_iff.mp hn
    have hdeps : depsOf events n = ev.dependencies := by
      rw [← hevname]
      exact depsOf_of_mem hnd hevmem
    rw [hdeps] at hd
    exact hres3 ev hevmem d hd
  have hinv0 := simInv_init events total hnd sorted hperm
  have hhd0 : ∀ (a : Nat × String × Nat) (rest : List (Nat × String × Nat)),
      (⟨0, seedReady events sorted, seedWaiting events sorted, [], 0, [], []⟩ :
        SimState).active = a :: rest → a.1 ≤ 0 := by
    intro a rest h
    exact absurd h (List.noConfusion)
  have hmeas0 : simMeasure ⟨0, seedReady events sorted, seedWaiting events sorted,
      [], 0, [], []⟩ < 2 * events.length + 1 := by
    have h1 : (seedReady events sorted).length =
        (sorted.filter (fun n => (depsOf events n).isEmpty)).length := by
      rw [(seedReady_perm events sorted).length_eq, List.length_map]
    have h2 : (seedWaiting events sorted).length =
        (sorted.filter (fun n => !(depsOf events n).isEmpty)).length := by
      rw [← seedWaiting_keys events sorted, List.length_map]
    have h3 := filter_length_split (fun n => (depsOf events n).isEmpty) sorted
    have h4 : sorted.length = (names events).length := hperm.length_eq
    have h5 : (names events).length = events.length := by simp [names]
    show 2 * (seedReady events sorted).length + 2 * (seedWaiting events sorted).length + 0 <
      2 * events.length + 1
    rw [h1, h2]
    omega
  obtain ⟨stf, h1, h2⟩ := simLoop_run events total (fun x => sorted.indexOf x) horder hres2
    (2 * events.length + 1) _ hinv0 hhd0 hmeas0
  exact ⟨stf, h1, h2⟩

theorem schedule_events_some_inv (total : Nat) (events : List Event)
    (hnd : (names events).Nodup)
    (s : List (String × Nat × Nat))
    (hr : schedule_events total events = .ok (some s)) :
    ∃ stf : SimState, SimInv events total stf ∧ s = stf.sched := by
  cases hts : topological_sort events with
  | error e =>
    rw [schedule_events, hts] at hr
    simp at hr
  | ok sorted =>
    rw [schedule_events, hts] at hr
    have hr2 : (Except.ok (runSim events total sorted) :
        Except SchedError (Option (List (String × Nat × Nat)))) = .ok (some s) := hr
    rw [Except.ok.injEq] at hr2
    obtain ⟨stf, h1, h2⟩ := runSim_inv events total hnd sorted hts
    rw [h2] at hr2
    rw [Option.some.injEq] at hr2
    exact ⟨stf, h1, hr2.symm⟩

/-- C1: whenever schedule_events returns a schedule (total or partial after the
deadlock break), then at every integer time point t the total
resources_required of the tasks whose scheduled interval contains t
(start ≤ t < end) is at most total_resources. -/
theorem schedule_events_resource_bound (total : Nat) (events : List Event)
    (hnd : (names events).Nodup)
    (s : List (String × Nat × Nat))
    (hr : schedule_events total events = .ok (some s)) (t : Int) :
    ((s.filter (fun x => (x.2.1 : Int) ≤ t ∧ t < (x.2.2 : Int))).map
      (fun x => resourcesOf events x.1)).sum ≤ total := by
  obtain ⟨stf, hinv, hs⟩ := schedule_events_some_inv total events hnd s hr
  rw [hs]
  exact hinv.res_bound t

/-- C1, witness: the bound at t = 1 on the schedule computed for the example
task set with capacity 2. -/
theorem schedule_events_resource_bound_witness :
    ((([(("A" : String), ((0 : Nat), (3 : Nat))), ("C", 3, 4), ("B", 4, 6)].filter
      (fun x => (x.2.1 : Int) ≤ 1 ∧ (1 : Int) < (x.2.2 : Int)))).map
      (fun x => resourcesOf exampleEvents x.1)).sum ≤ 2 :=
  schedule_events_resource_bound 2 exampleEvents (by decide)
    [("A", 0, 3), ("C", 3, 4), ("B", 4, 6)] rfl 1

/-- C2: whenever schedule_events returns a schedule and task A belongs to
task B's dependency list, with both tasks appearing in the schedule, A's end
time is at most B's start time. -/
theorem schedule_events_dep_order (total : Nat) (events : List Event)
    (hnd : (names events).Nodup)
    (s : List (String × Nat × Nat))
    (hr : schedule_events total events = .ok (some s))
    (A B : Event) (hB : B ∈ events)
    (hdep : A.name ∈ B.dependencies)
    (sa ea sb eb : Nat)
    (hAs : (A.name, sa, ea) ∈ s) (hBs : (B.name, sb, eb) ∈ s) :
    ea ≤ sb := by
  obtain ⟨stf, hinv, hs⟩ := schedule_events_some_inv total events hnd s hr
  subst hs
  have hdeps : depsOf events B.name = B.dependencies := depsOf_of_mem hnd hB
  obtain ⟨s2, e2, hmem, hle⟩ := hinv.dep_end (B.name, sb, eb) hBs A.name
    (by rw [hdeps]; exact hdep)
  have heq := sched_key_inj hinv.sched_keys_nodup hmem hAs rfl
  rw [Prod.mk.injEq] at heq
  obtain ⟨-, h2⟩ := heq
  rw [Prod.mk.injEq] at h2
  obtain ⟨-, h3⟩ := h2
  rw [← h3]
  exact hle

/-- C2, witness: in the example schedule, dependency A of C ends at 3 and C
starts at 3. -/
theorem schedule_events_dep_order_witness : (3 : Nat) ≤ 3 :=
  schedule_events_dep_order 2 exampleEvents (by decide)
    [("A", 0, 3), ("C", 3, 4), ("B", 4, 6)] rfl evA evC (by decide) (by decide)
    0 3 3 4 (by decide) (by decide)

/-- C8: on every task set that passes topological sort, schedule_events
terminates with a returned schedule; the fixed fuel 2·|events|+1 of the model
is proved sufficient, covering the deadlock-break exit in which the loop stops
with a partially populated schedule. -/
theorem schedule_events_terminates (total : Nat) (events : List Event)
    (hnd : (names events).Nodup)
    (sorted : List String) (hok : topological_sort events = .ok sorted) :
    ∃ out, schedule_events total events = .ok (some out) := by
  obtain ⟨stf, _, h2⟩ := runSim_inv events total hnd sorted hok
  refine ⟨stf.sched, ?_⟩
  have h3 : schedule_events total events = Except.ok (runSim events total sorted) := by
    rw [schedule_events, hok]
  rw [h3, h2]

/-- C8, witness: the deadlock task set (capacity 2, task D requiring 5)
terminates, and its result is the partial schedule containing only task E. -/
theorem schedule_events_terminates_witness :
    (∃ out, schedule_events 2 deadlockEvents = .ok (some out)) ∧
      schedule_events 2 deadlockEvents = .ok (some [("E", 0, 1)]) :=
  ⟨schedule_events_terminates 2 deadlockEvents (by decide) ["D", "E"] (by rfl), rfl⟩
